import Mathlib

/-!
Verification of the mkbench write-throughput pipeline (`internal/mkbench/write.go`).

The Go source is shallowly embedded: Go `int` becomes `Int` (with `Int.tdiv`
for Go's truncating division), Go `uint64` becomes `Nat`, Go `float64` becomes
`ℚ` (the benchmark's write-amplification values are small decimals, exactly
representable), Go maps become association lists whose insert-or-replace
operation is `aupsert`, and Go's fallible operations return `Option`/`Except`.
Go compares strings byte-wise; `strLe` below compares the characters of the
Lean strings, which agrees with byte order on UTF-8 data. `sort.Slice` /
`sort.Strings` are modelled by `List.insertionSort`, one admissible sorted
permutation.
-/

/-- Association-list lookup, the model of reading `m[k]` from a Go map
(`alookup k l` is the value at the first entry whose key is `k`). -/
def alookup {α : Type} (k : String) : List (String × α) → Option α
  | [] => none
  | (k', v) :: rest => if k = k' then some v else alookup k rest

/-- Association-list insert-or-replace, the model of the Go map write
`m[k] = v`: replaces the first entry keyed `k`, appends if absent. -/
def aupsert {α : Type} (k : String) (v : α) : List (String × α) → List (String × α)
  | [] => [(k, v)]
  | (k', v') :: rest => if k = k' then (k, v) :: rest else (k', v') :: aupsert k v rest

/-- Monadic map over `Option`, written as a plain recursion so that proofs can
proceed by structural induction. -/
def omapM {α β : Type} (f : α → Option β) : List α → Option (List β)
  | [] => some []
  | a :: rest =>
    match f a, omapM f rest with
    | some b, some bs => some (b :: bs)
    | _, _ => none

/-- Lexicographic comparison of character lists by code point, the model of
Go's byte-wise `<=` on UTF-8 strings. -/
def strLeAux : List Char → List Char → Bool
  | [], _ => true
  | _ :: _, [] => false
  | a :: as, b :: bs =>
    if a.toNat < b.toNat then true
    else if b.toNat < a.toNat then false
    else strLeAux as bs

/-- String order used wherever the Go code compares strings (`sort.Strings`,
`sort.Slice` on dates). -/
def strLe (a b : String) : Bool := strLeAux a.data b.data

/-- The proposition form of `strLe`, for `List.insertionSort`. -/
def strRel : String → String → Prop := fun a b => strLe a b = true

instance : DecidableRel strRel := fun a b => inferInstanceAs (Decidable (strLe a b = true))

theorem strLeAux_total : ∀ x y : List Char, strLeAux x y = true ∨ strLeAux y x = true := by
  intro x
  induction x with
  | nil => intro y; left; rfl
  | cons a as ih =>
    intro y
    cases y with
    | nil => right; rfl
    | cons b bs =>
      rcases Nat.lt_trichotomy a.toNat b.toNat with h | h | h
      · left; simp [strLeAux, h]
      · have h2 : ¬ a.toNat < b.toNat := by omega
        have h3 : ¬ b.toNat < a.toNat := by omega
        rcases ih bs with h4 | h4
        · left; simp [strLeAux, h2, h3, h4]
        · right; simp [strLeAux, h2, h3, h4]
      · right; simp [strLeAux, h]

theorem strLeAux_trans :
    ∀ x y z : List Char, strLeAux x y = true → strLeAux y z = true → strLeAux x z = true := by
  intro x
  induction x with
  | nil => intro y z _ _; rfl
  | cons a as ih =>
    intro y z hxy hyz
    cases y with
    | nil => simp [strLeAux] at hxy
    | cons b bs =>
      cases z with
      | nil => simp [strLeAux] at hyz
      | cons c cs =>
        simp only [strLeAux] at hxy hyz ⊢
        by_cases hab : a.toNat < b.toNat
        · by_cases hbc : b.toNat < c.toNat
          · simp [show a.toNat < c.toNat by omega]
          · simp only [hbc, if_false, if_true] at hyz
            by_cases hcb : c.toNat < b.toNat
            · simp [hcb] at hyz
            · simp [show a.toNat < c.toNat by omega]
        · simp only [hab, if_false, if_true] at hxy
          by_cases hba : b.toNat < a.toNat
          · simp [hba] at hxy
          · have hab' : a.toNat = b.toNat := by omega
            by_cases hbc : b.toNat < c.toNat
            · simp [show a.toNat < c.toNat by omega]
            · simp only [hbc, if_false, if_true] at hyz
              by_cases hcb : c.toNat < b.toNat
              · simp [hcb] at hyz
              · have hbc' : b.toNat = c.toNat := by omega
                have h2 : ¬ a.toNat < c.toNat := by omega
                have h3 : ¬ c.toNat < a.toNat := by omega
                simp only [hba, if_false, if_true] at hxy
                simp only [hcb, if_false, if_true] at hyz
                simp only [h2, h3, if_false, if_true]
                exact ih bs cs hxy hyz

instance : IsTotal String strRel := ⟨fun a b => strLeAux_total a.data b.data⟩

instance : IsTrans String strRel := ⟨fun a b c => strLeAux_trans a.data b.data c.data⟩

/-- Splitting a character list at a separator character, the model of Go's
`strings.Split` for a one-character separator. -/
def splitCharAux (sep : Char) : List Char → List (List Char)
  | [] => [[]]
  | a :: rest =>
    if a = sep then [] :: splitCharAux sep rest
    else
      match splitCharAux sep rest with
      | [] => [[a]]
      | g :: gs => (a :: g) :: gs

/-- Model of `strings.Split(s, "/")` (`os.PathSeparator` on the target platform). -/
def splitSlash (s : String) : List String :=
  (splitCharAux '/' s.data).map (fun cs => String.mk cs)

/-! ## The run reducer (optimal split) -/

/-- Number of misclassified samples for threshold `t`: a passing value `< t`
or a failing value `≥ t` (spec §4.2). -/
def misclassified (passes fails : List Int) (t : Int) : Nat :=
  (passes.filter (fun p => decide (p < t))).length +
    (fails.filter (fun f => decide (t ≤ f))).length

/-- Scan of the candidate thresholds keeping the one with the fewest
misclassifications, preferring the lower value on ties. -/
def pickSplit (f : Int → Nat) (best : Int) : List Int → Int
  | [] => best
  | c :: cs =>
    if f c < f best ∨ (f c = f best ∧ c < best) then pickSplit f c cs
    else pickSplit f best cs

/-- Modelled from the spec: `findOptimalSplit` lives in `split.go`, which is
not among the provided source files; this definition follows spec §4.2.
The threshold is drawn from the candidate set (passing and failing values) to
minimise the misclassification count, lowest candidate on ties; an all-pass
run yields the minimum passing value and an all-fail run yields the maximum
failing value plus one. -/
def findOptimalSplit (passes fails : List Int) : Int :=
  match passes, fails with
  | [], [] => 0
  | p :: ps, [] => ps.foldl min p
  | [], f :: fs => fs.foldl max f + 1
  | p :: ps, f :: fs => pickSplit (misclassified (p :: ps) (f :: fs)) p (ps ++ f :: fs)

theorem pickSplit_mem (f : Int → Nat) :
    ∀ (cs : List Int) (best : Int), pickSplit f best cs = best ∨ pickSplit f best cs ∈ cs := by
  intro cs
  induction cs with
  | nil => intro best; left; rfl
  | cons c cs ih =>
    intro best
    by_cases h : f c < f best ∨ (f c = f best ∧ c < best)
    · rcases ih c with h2 | h2
      · right; simp [pickSplit, h, h2]
      · right; simp only [pickSplit, if_pos h]; exact List.mem_cons_of_mem _ h2
    · rcases ih best with h2 | h2
      · left; simp [pickSplit, h, h2]
      · right; simp only [pickSplit, if_neg h]; exact List.mem_cons_of_mem _ h2

theorem pickSplit_min (f : Int → Nat) :
    ∀ (cs : List Int) (best : Int),
      f (pickSplit f best cs) ≤ f best ∧ ∀ x ∈ cs, f (pickSplit f best cs) ≤ f x := by
  intro cs
  induction cs with
  | nil => intro best; exact ⟨le_refl _, by intro x hx; cases hx⟩
  | cons c cs ih =>
    intro best
    by_cases h : f c < f best ∨ (f c = f best ∧ c < best)
    · obtain ⟨h1, h2⟩ := ih c
      have hcb : f c ≤ f best := by rcases h with h | ⟨h, _⟩; omega; omega
      refine ⟨by simpa [pickSplit, h] using le_trans h1 hcb, ?_⟩
      intro x hx
      rcases List.mem_cons.mp hx with rfl | hx
      · simpa [pickSplit, h] using h1
      · simpa [pickSplit, h] using h2 x hx
    · obtain ⟨h1, h2⟩ := ih best
      have hbc : f best ≤ f c := by
        rcases Nat.lt_or_ge (f c) (f best) with h3 | h3
        · exact absurd (Or.inl h3) h
        · omega
      refine ⟨by simpa [pickSplit, h] using h1, ?_⟩
      intro x hx
      rcases List.mem_cons.mp hx with rfl | hx
      · simpa [pickSplit, h] using le_trans h1 hbc
      · simpa [pickSplit, h] using h2 x hx

theorem pickSplit_lowest (f : Int → Nat) :
    ∀ (cs : List Int) (best : Int),
      (f best = f (pickSplit f best cs) → pickSplit f best cs ≤ best) ∧
      ∀ x ∈ cs, f x = f (pickSplit f best cs) → pickSplit f best cs ≤ x := by
  intro cs
  induction cs with
  | nil => intro best; exact ⟨fun _ => le_refl _, by intro x hx; cases hx⟩
  | cons c cs ih =>
    intro best
    by_cases h : f c < f best ∨ (f c = f best ∧ c < best)
    · obtain ⟨h1, h2⟩ := ih c
      obtain ⟨hm1, _⟩ := pickSplit_min f cs c
      refine ⟨?_, ?_⟩
      · intro he
        simp only [pickSplit, if_pos h] at he ⊢
        rcases h with h3 | ⟨h3, h4⟩
        · omega
        · have : pickSplit f c cs ≤ c := h1 (by omega)
          omega
      · intro x hx
        rcases List.mem_cons.mp hx with rfl | hx
        · intro he; simp only [pickSplit, if_pos h] at he ⊢; exact h1 he
        · intro he; simp only [pickSplit, if_pos h] at he ⊢; exact h2 x hx he
    · obtain ⟨h1, h2⟩ := ih best
      refine ⟨?_, ?_⟩
      · intro he; simp only [pickSplit, if_neg h] at he ⊢; exact h1 he
      · intro x hx
        rcases List.mem_cons.mp hx with rfl | hx
        · intro he
          simp only [pickSplit, if_neg h] at he ⊢
          obtain ⟨hm1, _⟩ := pickSplit_min f cs best
          have hxb : f best ≤ f x := by
            rcases Nat.lt_or_ge (f x) (f best) with h3 | h3
            · exact absurd (Or.inl h3) h
            · omega
          have hb : f best = f (pickSplit f best cs) := by omega
          have := h1 hb
          rcases Nat.lt_or_ge (f x) (f best) with h3 | h3
          · exact absurd (Or.inl h3) h
          · have h4 : ¬ (f x = f best ∧ x < best) := fun h5 => h (Or.inr h5)
            rcases Int.lt_or_le x best with h5 | h5
            · exact absurd ⟨by omega, h5⟩ h4
            · omega
        · intro he; simp only [pickSplit, if_neg h] at he ⊢; exact h2 x hx he

theorem foldl_min_mem : ∀ (l : List Int) (a : Int), l.foldl min a = a ∨ l.foldl min a ∈ l := by
  intro l
  induction l with
  | nil => intro a; left; rfl
  | cons b l ih =>
    intro a
    rcases ih (min a b) with h | h
    · rcases min_choice a b with h2 | h2
      · left; rw [List.foldl_cons, h, h2]
      · right; rw [List.foldl_cons, h, h2]; exact List.mem_cons_self _ _
    · right; rw [List.foldl_cons]; exact List.mem_cons_of_mem _ h

theorem foldl_min_le : ∀ (l : List Int) (a : Int), l.foldl min a ≤ a ∧ ∀ x ∈ l, l.foldl min a ≤ x := by
  intro l
  induction l with
  | nil => intro a; exact ⟨le_refl _, by intro x hx; cases hx⟩
  | cons b l ih =>
    intro a
    obtain ⟨h1, h2⟩ := ih (min a b)
    refine ⟨le_trans h1 (min_le_left _ _), ?_⟩
    intro x hx
    rcases List.mem_cons.mp hx with rfl | hx
    · exact le_trans h1 (min_le_right _ _)
    · exact h2 x hx

theorem foldl_max_mem : ∀ (l : List Int) (a : Int), l.foldl max a = a ∨ l.foldl max a ∈ l := by
  intro l
  induction l with
  | nil => intro a; left; rfl
  | cons b l ih =>
    intro a
    rcases ih (max a b) with h | h
    · rcases max_choice a b with h2 | h2
      · left; rw [List.foldl_cons, h, h2]
      · right; rw [List.foldl_cons, h, h2]; exact List.mem_cons_self _ _
    · right; rw [List.foldl_cons]; exact List.mem_cons_of_mem _ h

theorem le_foldl_max : ∀ (l : List Int) (a : Int), a ≤ l.foldl max a ∧ ∀ x ∈ l, x ≤ l.foldl max a := by
  intro l
  induction l with
  | nil => intro a; exact ⟨le_refl _, by intro x hx; cases hx⟩
  | cons b l ih =>
    intro a
    obtain ⟨h1, h2⟩ := ih (max a b)
    refine ⟨le_trans (le_max_left _ _) h1, ?_⟩
    intro x hx
    rcases List.mem_cons.mp hx with rfl | hx
    · exact le_trans (le_max_right _ _) h1
    · exact h2 x hx

/-! ## Data points and worker runs -/

/-- Rounding of a rational to the nearest integer, halves away from zero: the
model of Go's `math.Round` on `float64`. -/
def roundAway (q : ℚ) : ℤ :=
  if 0 ≤ q then ⌊q + 1/2⌋ else -⌊-q + 1/2⌋

/-- Rendering of a rational with exactly two digits after the decimal point,
the model of Go's `%.2f` formatting of a `float64`. -/
def format2f (q : ℚ) : String :=
  let cents := roundAway (100 * q)
  let a := cents.natAbs
  let sign := if cents < 0 then "-" else ""
  let frac := a % 100
  sign ++ toString (a / 100) ++ "." ++ (if frac < 10 then "0" ++ toString frac else toString frac)

/-- One raw datapoint of a write-throughput benchmark run (`writePoint`). -/
structure writePoint where
  elapsedSecs : Int
  opsSec : Int
  passed : Bool
  size : Nat
  levels : Int
  writeAmp : ℚ
deriving DecidableEq

/-- Comma-separated rendering of a datapoint (`writePoint.formatCSV`,
format string `%d,%d,%v,%d,%d,%.2f`). -/
def writePoint.formatCSV (p : writePoint) : String :=
  toString p.elapsedSecs ++ "," ++ toString p.opsSec ++ "," ++
    (if p.passed then "true" else "false") ++ "," ++ toString p.size ++ "," ++
    toString p.levels ++ "," ++ format2f p.writeAmp

/-- The datapoints of a single benchmark instance plus the memoized split
value (`rawWriteRun`; the Go zero value of `split` is `0`). -/
structure rawWriteRun where
  points : List writePoint
  split : Int
deriving DecidableEq

/-- Ops/sec values of the passing datapoints, in order (the `passes` slice
built by `opsPerSecSplit`). -/
def rawWriteRun.passVals (r : rawWriteRun) : List Int :=
  (r.points.filter (fun p => p.passed)).map (fun p => p.opsSec)

/-- Ops/sec values of the failing datapoints, in order (the `fails` slice
built by `opsPerSecSplit`). -/
def rawWriteRun.failVals (r : rawWriteRun) : List Int :=
  (r.points.filter (fun p => !p.passed)).map (fun p => p.opsSec)

/-- The optimal-split reducer with its memoization (`rawWriteRun.opsPerSecSplit`):
returns the cached value if `split > 0`, else partitions the points by their
`passed` flag and computes the split. The second component is the updated
receiver (the Go method mutates `r.split`; callers that range over the
`rawRuns` map operate on copies and discard it). -/
def rawWriteRun.opsPerSecSplit (r : rawWriteRun) : Int × rawWriteRun :=
  if 0 < r.split then (r.split, r)
  else
    let split := findOptimalSplit r.passVals r.failVals
    (split, { r with split := split })

/-- Write-amplification at the end of the run (`rawWriteRun.writeAmp`, which
indexes the last point; `none` models the Go panic on an empty slice). -/
def rawWriteRun.writeAmp (r : rawWriteRun) : Option ℚ :=
  (r.points.getLast?).map (fun p => p.writeAmp)

/-- CSV rendering of a whole run (`rawWriteRun.formatCSV`): a `bytes.Buffer`
fold appending each point's CSV line followed by a newline. -/
def rawWriteRun.formatCSV (r : rawWriteRun) : String :=
  r.points.foldl (fun b p => b ++ p.formatCSV ++ "\n") ""

/-! ## Per-run summaries -/

/-- One summary datapoint of a `writeRun` (`writeRunSummary`). -/
structure writeRunSummary where
  Name : String
  Date : String
  OpsSec : Int
  WriteAmp : ℚ
  SummaryPath : String
deriving DecidableEq

/-- A day's collection of raw runs for one workload (`writeRun`). -/
structure writeRun where
  name : String
  date : String
  dir : String
  rawRuns : List (String × rawWriteRun)
deriving DecidableEq

/-- Name of the per-run summary file (`writeRun.summaryFilename`): the data
directory's path separators replaced by `-`, suffixed with `summary.json`. -/
def writeRun.summaryFilename (r : writeRun) : String :=
  String.intercalate "-" (splitSlash r.dir ++ ["summary.json"])

/-- The accumulation loop of `writeRun.summarize`: sums each raw run's split
value and final write-amplification; `none` models the panic on a raw run
with no points. -/
def summarizeLoop : List (String × rawWriteRun) → Int → ℚ → Option (Int × ℚ)
  | [], sumOpsSec, sumWriteAmp => some (sumOpsSec, sumWriteAmp)
  | (_, rr) :: rest, sumOpsSec, sumWriteAmp =>
    match rr.writeAmp with
    | none => none
    | some wa => summarizeLoop rest (sumOpsSec + (rr.opsPerSecSplit).1) (sumWriteAmp + wa)

/-- The per-day summary datapoint (`writeRun.summarize`): averages the raw
runs' representative throughputs (truncating integer division) and their
final write-amplifications (rounded to 2 decimal places); `none` models the
division by zero (no raw runs) or the panic on a pointless raw run. -/
def writeRun.summarize (r : writeRun) : Option writeRunSummary :=
  match summarizeLoop r.rawRuns 0 0 with
  | none => none
  | some (sumOpsSec, sumWriteAmp) =>
    if r.rawRuns.length = 0 then none
    else some
      { Name := r.name
        Date := r.date
        SummaryPath := r.summaryFilename
        OpsSec := Int.tdiv sumOpsSec (r.rawRuns.length : Int)
        WriteAmp := (roundAway (100 * sumWriteAmp / (r.rawRuns.length : ℚ)) : ℚ) / 100 }

/-- A previously parsed run as stored in a per-run summary file
(`cookedWriteRun`). -/
structure cookedWriteRun where
  OpsSec : Int
  Raw : String
deriving DecidableEq

/-- The structural content of `writeRun.formatSummaryJSON`: each raw run's
split value and CSV data, keyed by source-file path. -/
def writeRun.detail (r : writeRun) : List (String × cookedWriteRun) :=
  r.rawRuns.map (fun pr => (pr.1, { OpsSec := (pr.2.opsPerSecSplit).1, Raw := pr.2.formatCSV }))

theorem opsPerSecSplit_fresh (r : rawWriteRun) (h : r.split = 0) :
    (r.opsPerSecSplit).1 = findOptimalSplit r.passVals r.failVals := by
  simp [rawWriteRun.opsPerSecSplit, h]

/-- C1: on a fresh worker-run (memo field still zero) the representative
throughput returned by `rawWriteRun.opsPerSecSplit` is: when both passing
values `P` and failing values `F` are present, a candidate from `P ∪ F`
minimising the misclassification count (passing sample below it, failing
sample at or above it), the lowest candidate among ties; when `F` is empty it
is `min P`; when `P` is empty it is `max F + 1` — so the reducer is defined
for all-pass and all-fail runs. -/
theorem opsPerSecSplit_optimal (r : rawWriteRun) (h : r.split = 0) :
    (r.failVals = [] → r.passVals ≠ [] →
        (r.opsPerSecSplit).1 ∈ r.passVals ∧ ∀ x ∈ r.passVals, (r.opsPerSecSplit).1 ≤ x) ∧
    (r.passVals = [] → r.failVals ≠ [] →
        ∃ m, m ∈ r.failVals ∧ (∀ x ∈ r.failVals, x ≤ m) ∧ (r.opsPerSecSplit).1 = m + 1) ∧
    (r.passVals ≠ [] → r.failVals ≠ [] →
        (r.opsPerSecSplit).1 ∈ r.passVals ++ r.failVals ∧
        (∀ c ∈ r.passVals ++ r.failVals,
          misclassified r.passVals r.failVals (r.opsPerSecSplit).1 ≤
            misclassified r.passVals r.failVals c) ∧
        (∀ c ∈ r.passVals ++ r.failVals,
          misclassified r.passVals r.failVals c =
              misclassified r.passVals r.failVals (r.opsPerSecSplit).1 →
            (r.opsPerSecSplit).1 ≤ c)) := by
  have ht := opsPerSecSplit_fresh r h
  refine ⟨?_, ?_, ?_⟩
  · intro hF hP
    rw [ht]
    cases hp : r.passVals with
    | nil => exact absurd hp hP
    | cons p ps =>
      rw [hF]
      simp only [findOptimalSplit]
      constructor
      · rcases foldl_min_mem ps p with h2 | h2
        · rw [h2]; exact List.mem_cons_self _ _
        · exact List.mem_cons_of_mem _ h2
      · intro x hx
        obtain ⟨h1, h2⟩ := foldl_min_le ps p
        rcases List.mem_cons.mp hx with rfl | hx
        · exact h1
        · exact h2 x hx
  · intro hP hF
    rw [ht, hP]
    cases hf : r.failVals with
    | nil => exact absurd hf hF
    | cons f fs =>
      refine ⟨fs.foldl max f, ?_, ?_, rfl⟩
      · rcases foldl_max_mem fs f with h2 | h2
        · rw [h2]; exact List.mem_cons_self _ _
        · exact List.mem_cons_of_mem _ h2
      · intro x hx
        obtain ⟨h1, h2⟩ := le_foldl_max fs f
        rcases List.mem_cons.mp hx with rfl | hx
        · exact h1
        · exact h2 x hx
  · intro hP hF
    rw [ht]
    cases hp : r.passVals with
    | nil => exact absurd hp hP
    | cons p ps =>
      cases hf : r.failVals with
      | nil => exact absurd hf hF
      | cons f fs =>
        simp only [findOptimalSplit]
        have hcands : p :: (ps ++ f :: fs) = (p :: ps) ++ f :: fs := by simp
        set g := misclassified (p :: ps) (f :: fs) with hg
        refine ⟨?_, ?_, ?_⟩
        · rcases pickSplit_mem g (ps ++ f :: fs) p with h2 | h2
          · rw [h2]; exact List.mem_cons_self _ _
          · rw [← hcands]; exact List.mem_cons_of_mem _ h2
        · intro c hc
          obtain ⟨h1, h2⟩ := pickSplit_min g (ps ++ f :: fs) p
          rw [← hcands] at hc
          rcases List.mem_cons.mp hc with rfl | hc
          · exact h1
          · exact h2 c hc
        · intro c hc he
          obtain ⟨h1, h2⟩ := pickSplit_lowest g (ps ++ f :: fs) p
          rw [← hcands] at hc
          rcases List.mem_cons.mp hc with rfl | hc
          · exact h1 he
          · exact h2 c hc he

/-- Worker-run used to witness C1: passing values 100, 110, 120 and failing
values 90, 95 (spec §8 example; the optimal threshold is 100). -/
def rc1 : rawWriteRun :=
  { points :=
      [ { elapsedSecs := 0, opsSec := 100, passed := true, size := 0, levels := 0, writeAmp := 0 }
      , { elapsedSecs := 1, opsSec := 110, passed := true, size := 0, levels := 0, writeAmp := 0 }
      , { elapsedSecs := 2, opsSec := 120, passed := true, size := 0, levels := 0, writeAmp := 0 }
      , { elapsedSecs := 3, opsSec := 90, passed := false, size := 0, levels := 0, writeAmp := 0 }
      , { elapsedSecs := 4, opsSec := 95, passed := false, size := 0, levels := 0, writeAmp := 0 } ]
    split := 0 }

theorem opsPerSecSplit_optimal_witness :
    rc1.split = 0 ∧
    ((rc1.failVals = [] → rc1.passVals ≠ [] →
        (rc1.opsPerSecSplit).1 ∈ rc1.passVals ∧ ∀ x ∈ rc1.passVals, (rc1.opsPerSecSplit).1 ≤ x) ∧
    (rc1.passVals = [] → rc1.failVals ≠ [] →
        ∃ m, m ∈ rc1.failVals ∧ (∀ x ∈ rc1.failVals, x ≤ m) ∧ (rc1.opsPerSecSplit).1 = m + 1) ∧
    (rc1.passVals ≠ [] → rc1.failVals ≠ [] →
        (rc1.opsPerSecSplit).1 ∈ rc1.passVals ++ rc1.failVals ∧
        (∀ c ∈ rc1.passVals ++ rc1.failVals,
          misclassified rc1.passVals rc1.failVals (rc1.opsPerSecSplit).1 ≤
            misclassified rc1.passVals rc1.failVals c) ∧
        (∀ c ∈ rc1.passVals ++ rc1.failVals,
          misclassified rc1.passVals rc1.failVals c =
              misclassified rc1.passVals rc1.failVals (rc1.opsPerSecSplit).1 →
            (rc1.opsPerSecSplit).1 ≤ c))) :=
  ⟨rfl, opsPerSecSplit_optimal rc1 rfl⟩

theorem rc1_value : (rc1.opsPerSecSplit).1 = 100 := by decide

/-! ## C4: per-day averaging -/

theorem writeAmp_of_points_ne_nil (rr : rawWriteRun) (h : rr.points ≠ []) :
    ∃ wa, rr.writeAmp = some wa := by
  rcases hl : rr.points.getLast? with _ | wa
  · exact absurd (List.getLast?_eq_none_iff.mp hl) h
  · exact ⟨wa.writeAmp, by simp [rawWriteRun.writeAmp, hl]⟩

theorem summarizeLoop_eq (l : List (String × rawWriteRun)) :
    ∀ so : Int, ∀ sw : ℚ, (∀ pr ∈ l, pr.2.points ≠ []) →
      summarizeLoop l so sw =
        some (so + (l.map (fun pr => (pr.2.opsPerSecSplit).1)).sum,
              sw + (l.map (fun pr => (pr.2.writeAmp).getD 0)).sum) := by
  induction l with
  | nil => intro so sw _; simp [summarizeLoop]
  | cons hd tl ih =>
    intro so sw hp
    obtain ⟨k, rr⟩ := hd
    obtain ⟨wa, hwa⟩ := writeAmp_of_points_ne_nil rr (hp (k, rr) (List.mem_cons_self _ _))
    have hrest : ∀ pr ∈ tl, pr.2.points ≠ [] := fun pr hpr => hp pr (List.mem_cons_of_mem _ hpr)
    simp only [summarizeLoop, hwa]
    rw [ih _ _ hrest]
    simp only [List.map_cons, List.sum_cons, hwa, Option.getD_some, Option.some.injEq,
      Prod.mk.injEq]
    constructor
    · ring
    · ring

/-- C4: for a run with at least one worker-run (and none of them empty),
`writeRun.summarize` yields a summary whose `OpsSec` is the sum of the
worker-runs' representative throughputs divided by their number with
truncating integer division, and whose `WriteAmp` is the arithmetic mean of
their final write-amplifications rounded (half away from zero) to 2 decimal
places. -/
theorem summarize_mean (r : writeRun) (h1 : r.rawRuns ≠ [])
    (h2 : ∀ pr ∈ r.rawRuns, pr.2.points ≠ []) :
    ∃ s, r.summarize = some s ∧
      s.OpsSec =
        Int.tdiv ((r.rawRuns.map (fun pr => (pr.2.opsPerSecSplit).1)).sum)
          (r.rawRuns.length : Int) ∧
      s.WriteAmp =
        (roundAway (100 * ((r.rawRuns.map (fun pr => (pr.2.writeAmp).getD 0)).sum) /
            (r.rawRuns.length : ℚ)) : ℚ) / 100 ∧
      s.Name = r.name ∧ s.Date = r.date ∧ s.SummaryPath = r.summaryFilename := by
  have hlen : r.rawRuns.length ≠ 0 := fun h => h1 (List.length_eq_zero.mp h)
  refine ⟨{ Name := r.name, Date := r.date, SummaryPath := r.summaryFilename
            OpsSec :=
              Int.tdiv ((r.rawRuns.map (fun pr => (pr.2.opsPerSecSplit).1)).sum)
                (r.rawRuns.length : Int)
            WriteAmp :=
              (roundAway (100 * ((r.rawRuns.map (fun pr => (pr.2.writeAmp).getD 0)).sum) /
                  (r.rawRuns.length : ℚ)) : ℚ) / 100 }, ?_, rfl, rfl, rfl, rfl, rfl⟩
  simp only [writeRun.summarize]
  rw [summarizeLoop_eq r.rawRuns 0 0 h2]
  simp [hlen]

/-- Run used to witness C4: two worker-runs whose reducers yield 1000 and
1200 ops/sec with final write-amplifications 2 and 3 (spec §8 example). -/
def rc4 : writeRun :=
  { name := "values=1024"
    date := "2023-01-02"
    dir := "2023-01-02/pebble/write/values=1024/1"
    rawRuns :=
      [ ("f1", { points := [{ elapsedSecs := 10, opsSec := 1000, passed := true, size := 0,
                              levels := 0, writeAmp := 2 }], split := 0 })
      , ("f2", { points := [{ elapsedSecs := 10, opsSec := 1200, passed := true, size := 0,
                              levels := 0, writeAmp := 3 }], split := 0 }) ] }

theorem summarize_mean_witness :
    rc4.rawRuns ≠ [] ∧
    (∃ s, rc4.summarize = some s ∧
      s.OpsSec =
        Int.tdiv ((rc4.rawRuns.map (fun pr => (pr.2.opsPerSecSplit).1)).sum)
          (rc4.rawRuns.length : Int) ∧
      s.WriteAmp =
        (roundAway (100 * ((rc4.rawRuns.map (fun pr => (pr.2.writeAmp).getD 0)).sum) /
            (rc4.rawRuns.length : ℚ)) : ℚ) / 100 ∧
      s.Name = rc4.name ∧ s.Date = rc4.date ∧ s.SummaryPath = rc4.summaryFilename) :=
  ⟨by decide, summarize_mean rc4 (by decide) (by decide)⟩

/-- The summary that `rc4` reduces to. -/
def sc4 : writeRunSummary :=
  match rc4.summarize with
  | some s => s
  | none => { Name := "", Date := "", OpsSec := 0, WriteAmp := 0, SummaryPath := "" }

theorem rc4_values : rc4.summarize = some sc4 ∧ sc4.OpsSec = 1100 ∧ sc4.WriteAmp = 5/2 := by
  refine ⟨rfl, by decide, ?_⟩
  have h : sc4.WriteAmp =
      (roundAway (100 * (((0 : ℚ) + 2) + 3) / ((2 : Nat) : ℚ)) : ℚ) / 100 := rfl
  rw [h]
  norm_num [roundAway]

/-! ## C10: top-level OpsSec agrees with the per-run detail file -/

theorem summarizeLoop_sum (l : List (String × rawWriteRun)) :
    ∀ so : Int, ∀ sw : ℚ, ∀ out, summarizeLoop l so sw = some out →
      out.1 = so + (l.map (fun pr => (pr.2.opsPerSecSplit).1)).sum := by
  induction l with
  | nil =>
    intro so sw out h
    simp only [summarizeLoop, Option.some.injEq] at h
    rw [← h]
    simp
  | cons hd tl ih =>
    intro so sw out h
    obtain ⟨k, rr⟩ := hd
    simp only [summarizeLoop] at h
    rcases hwa : rr.writeAmp with _ | wa
    · rw [hwa] at h; cases h
    · rw [hwa] at h
      have h2 := ih _ _ _ h
      simp only [List.map_cons, List.sum_cons]
      rw [h2]
      ring

/-- C10: the `OpsSec` that `writeRun.summarize` records for a run in the
top-level summary equals the truncating integer mean of the `OpsSec` values
that `writeRun.detail` (the structural content of `formatSummaryJSON`)
records for the run's files. The memoized `split` of `opsPerSecSplit` is
never written back into the `rawRuns` map — both call sites range over
copies — but the computation is a pure function of the stored run, so the
two artifacts see identical per-file values. -/
theorem summary_detail_consistent (r : writeRun) (s : writeRunSummary)
    (h : r.summarize = some s) :
    s.OpsSec = Int.tdiv ((r.detail.map (fun kv => kv.2.OpsSec)).sum) (r.detail.length : Int) := by
  have hdet : r.detail.map (fun kv => kv.2.OpsSec) =
      r.rawRuns.map (fun pr => (pr.2.opsPerSecSplit).1) := by
    simp [writeRun.detail, List.map_map]
  have hlen : r.detail.length = r.rawRuns.length := by
    simp [writeRun.detail]
  simp only [writeRun.summarize] at h
  rcases hloop : summarizeLoop r.rawRuns 0 0 with _ | out
  · rw [hloop] at h; cases h
  · rw [hloop] at h
    obtain ⟨so, sw⟩ := out
    have hsum := summarizeLoop_sum r.rawRuns 0 0 (so, sw) hloop
    simp only at h
    rcases Nat.eq_zero_or_pos r.rawRuns.length with hz | hz
    · rw [if_pos hz] at h; cases h
    · rw [if_neg (Nat.pos_iff_ne_zero.mp hz)] at h
      obtain ⟨⟩ := h
      simp only [hdet, hlen]
      simp only at hsum
      rw [hsum, zero_add]

/-- Run used to witness C10: a single worker-run. -/
def rc10 : writeRun :=
  { name := "values=64"
    date := "2023-01-05"
    dir := "2023-01-05/pebble/write/values=64/2"
    rawRuns :=
      [ ("log1.gz", { points := [{ elapsedSecs := 5, opsSec := 700, passed := true, size := 16,
                                   levels := 3, writeAmp := 4 }], split := 0 }) ] }

/-- The summary that `rc10` reduces to (projected from the computation, so
that the hypothesis of the theorem is discharged by `rfl`). -/
def sc10 : writeRunSummary :=
  match rc10.summarize with
  | some s => s
  | none => { Name := "", Date := "", OpsSec := 0, WriteAmp := 0, SummaryPath := "" }

theorem summary_detail_consistent_witness :
    rc10.summarize = some sc10 ∧
    sc10.OpsSec =
      Int.tdiv ((rc10.detail.map (fun kv => kv.2.OpsSec)).sum) (rc10.detail.length : Int) :=
  ⟨rfl, summary_detail_consistent rc10 sc10 rfl⟩

/-! ## C9: CSV rendering of a worker-run -/

theorem strJoinFoldl : ∀ (l : List String) (acc : String),
    l.foldl (fun a b => a ++ b) acc = acc ++ String.join l := by
  intro l
  induction l with
  | nil => intro acc; simp [String.join, String.append_empty]
  | cons b bs ih =>
    intro acc
    have hj : String.join (b :: bs) = b ++ String.join bs := by
      simp only [String.join, List.foldl_cons]
      rw [ih ("" ++ b), String.empty_append]
      rfl
    rw [List.foldl_cons, ih (acc ++ b), hj, String.append_assoc]

theorem strJoin_cons (a : String) (l : List String) :
    String.join (a :: l) = a ++ String.join l := by
  simp only [String.join, List.foldl_cons]
  rw [strJoinFoldl l ("" ++ a), String.empty_append]
  rfl

theorem intercalate_go_eq (sep : String) : ∀ (l : List String) (acc : String),
    String.intercalate.go acc sep l = acc ++ String.join (l.map (fun a => sep ++ a)) := by
  intro l
  induction l with
  | nil => intro acc; simp [String.intercalate.go, String.join, String.append_empty]
  | cons b bs ih =>
    intro acc
    rw [String.intercalate.go, ih (acc ++ sep ++ b), List.map_cons, strJoin_cons,
      String.append_assoc, String.append_assoc]
    rw [String.append_assoc]

theorem intercalate_cons (sep a : String) (l : List String) :
    String.intercalate sep (a :: l) = a ++ String.join (l.map (fun x => sep ++ x)) := by
  simp only [String.intercalate]
  exact intercalate_go_eq sep l a

theorem join_rows_eq : ∀ (rows : List String) (a : String),
    String.join ((a :: rows).map (fun s => s ++ "\n")) =
      a ++ String.join (rows.map (fun x => "\n" ++ x)) ++ "\n" := by
  intro rows
  induction rows with
  | nil => intro a; simp [String.join, String.empty_append, String.append_empty]
  | cons b bs ih =>
    intro a
    rw [List.map_cons, strJoin_cons, ih b, List.map_cons, strJoin_cons]
    simp [String.append_assoc]

/-- C9 (amended): `rawWriteRun.formatCSV` renders the samples in order as
comma-separated rows, each row terminated by a newline — equivalently, for a
nonempty run it is the rows joined by newlines followed by one trailing
newline (and it is empty for a pointless run). -/
theorem formatCSV_newline_terminated (r : rawWriteRun) :
    rawWriteRun.formatCSV r =
      String.join ((r.points.map writePoint.formatCSV).map (fun s => s ++ "\n")) ∧
    (r.points = [] → rawWriteRun.formatCSV r = "") ∧
    (r.points ≠ [] → rawWriteRun.formatCSV r =
      String.intercalate "\n" (r.points.map writePoint.formatCSV) ++ "\n") := by
  have h1 : rawWriteRun.formatCSV r =
      String.join ((r.points.map writePoint.formatCSV).map (fun s => s ++ "\n")) := by
    simp only [rawWriteRun.formatCSV]
    have h2 : ∀ (l : List writePoint) (acc : String),
        l.foldl (fun b p => b ++ p.formatCSV ++ "\n") acc =
          acc ++ String.join ((l.map writePoint.formatCSV).map (fun s => s ++ "\n")) := by
      intro l
      induction l with
      | nil => intro acc; simp [String.join, String.append_empty]
      | cons p ps ih =>
        intro acc
        rw [List.foldl_cons, ih, List.map_cons, List.map_cons, strJoin_cons,
          String.append_assoc, String.append_assoc]
        rw [String.append_assoc]
    rw [h2, String.empty_append]
  refine ⟨h1, ?_, ?_⟩
  · intro hp
    rw [h1, hp]
    simp [String.join]
  · intro hp
    rcases hl : r.points.map writePoint.formatCSV with _ | ⟨a, rows⟩
    · exact absurd (List.map_eq_nil_iff.mp hl) hp
    · rw [h1, hl, join_rows_eq, intercalate_cons]

/-- Point and run used for the C9 counterexample. -/
def pc9 : writePoint :=
  { elapsedSecs := 1, opsSec := 2, passed := true, size := 3, levels := 4, writeAmp := 5 }

/-- Single-sample run used for the C9 counterexample. -/
def rc9 : rawWriteRun := { points := [pc9], split := 0 }

/-- C9 (counterexample): for a run with one sample the rendered string is the
one CSV row followed by a newline, which differs from the rows merely joined
by newlines (the join of a single row has no trailing newline). -/
theorem formatCSV_trailing_newline_counterexample :
    rawWriteRun.formatCSV rc9 ≠
      String.intercalate "\n" (rc9.points.map writePoint.formatCSV) := by
  intro h
  have h1 : rawWriteRun.formatCSV rc9 = pc9.formatCSV ++ "\n" := rfl
  have h2 : String.intercalate "\n" (rc9.points.map writePoint.formatCSV) = pc9.formatCSV := rfl
  rw [h1, h2] at h
  have h3 := congrArg String.length h
  rw [String.length_append] at h3
  simp at h3
  exact absurd h3 (by decide)

/-! ## The write loader: scanning, aggregation tree, cooked data -/

/-- A (workload name, day) pair, the key of the cooked-data set (`nameDay`). -/
structure nameDay where
  name : String
  day : String
deriving DecidableEq

/-- Parse outcome of one input line, abstracting the fixed record format: a
line without the `BenchmarkRaw` tag; a tagged line whose `fmt.Sscanf` fails
or matches fewer than 7 fields; a tagged line whose fields scan but whose
elapsed-duration string fails `time.ParseDuration`; or a fully parsed line
carrying its benchmark name and datapoint. -/
inductive fileLine where
  | noTag : fileLine
  | malformed : fileLine
  | badDur (nameInner : String) : fileLine
  | good (nameInner : String) (p : writePoint) : fileLine
deriving DecidableEq

/-- A reported (non-fatal) diagnostic of the scanning loop: a line whose
field scan failed, a benchmark name differing from the file's first-seen
name, or a duration that failed to parse. -/
inductive diag where
  | parseError : diag
  | nameMismatch (seen found : String) : diag
  | badDuration : diag
deriving DecidableEq

/-- The per-file scanning loop of `loadRaw`: walks the lines carrying the
established benchmark name, the collected points and the reported
diagnostics. A `none` result models the early `return nil` that skips a file
whose (name, day) was cooked previously; otherwise the final name, points
and diagnostics are returned. -/
def scanLoop (cooked : List nameDay) (day : String) :
    String → List writePoint → List diag → List fileLine →
      Option (String × List writePoint × List diag)
  | name, pts, ds, [] => some (name, pts, ds)
  | name, pts, ds, .noTag :: rest => scanLoop cooked day name pts ds rest
  | name, pts, ds, .malformed :: rest => scanLoop cooked day name pts (ds ++ [.parseError]) rest
  | name, pts, ds, .badDur m :: rest =>
    if name = "" then
      if (⟨m, day⟩ : nameDay) ∈ cooked then none
      else scanLoop cooked day m pts (ds ++ [.badDuration]) rest
    else
      if name ≠ m then scanLoop cooked day name pts (ds ++ [.nameMismatch name m, .badDuration]) rest
      else scanLoop cooked day name pts (ds ++ [.badDuration]) rest
  | name, pts, ds, .good m p :: rest =>
    if name = "" then
      if (⟨m, day⟩ : nameDay) ∈ cooked then none
      else scanLoop cooked day m (pts ++ [p]) ds rest
    else
      if name ≠ m then scanLoop cooked day name (pts ++ [p]) (ds ++ [.nameMismatch name m]) rest
      else scanLoop cooked day name (pts ++ [p]) ds rest

/-- The day-to-run map of one workload (`writeWorkload`). -/
structure writeWorkload where
  days : List (String × writeRun)
deriving DecidableEq

/-- The loader state (`writeLoader`, without the directory paths, which only
feed the I/O collaborators). -/
structure loaderState where
  workloads : List (String × writeWorkload)
  cooked : List nameDay
  cookedSummaries : List (String × List writeRunSummary)
deriving DecidableEq

/-- Model of `filepath.Dir`. -/
def dirOf (path : String) : String :=
  let parts := splitSlash path
  if parts.length ≤ 1 then "." else String.intercalate "/" parts.dropLast

/-- `writeLoader.addRawRun`: drops a run with no points, otherwise files the
raw run under its workload name and day, creating the intermediate nodes on
first use, and replaces any previous raw run recorded for the same path. -/
def addRawRun (st : loaderState) (name day path : String) (raw : rawWriteRun) : loaderState :=
  if raw.points.isEmpty then st
  else
    let w := (alookup name st.workloads).getD { days := [] }
    let r := (alookup day w.days).getD
      { name := name, date := day, dir := dirOf path, rawRuns := [] }
    let r2 := { r with rawRuns := aupsert path raw r.rawRuns }
    let w2 := { w with days := aupsert day r2 w.days }
    { st with workloads := aupsert name w2 st.workloads }

/-- One input file as the walk function of `loadRaw` sees it: its path
relative to the data root and the parse outcomes of its lines. -/
structure fileData where
  pathRel : String
  lines : List fileLine
deriving DecidableEq

/-- The walk function of `loadRaw` for one file: requires at least six path
segments with `write` at index 2, derives the day from segment 0, scans the
lines (skipping the file if its first scanned name is cooked for that day)
and adds the resulting raw run. -/
def processFile (st : loaderState) (f : fileData) : loaderState :=
  let parts := splitSlash f.pathRel
  if parts.length < 6 then st
  else if parts.getD 2 "" ≠ "write" then st
  else
    let day := parts.getD 0 ""
    match scanLoop st.cooked day "" [] [] f.lines with
    | none => st
    | some (name, pts, _) => addRawRun st name day f.pathRel { points := pts, split := 0 }

/-- The state of the previously emitted top-level summary file as `loadCooked`
finds it: absent, present but not valid JSON for the expected shape, or
present and decoding to a map from workload name to its summary sequence. -/
inductive summaryFile where
  | absent : summaryFile
  | malformed : summaryFile
  | wellformed (m : List (String × List writeRunSummary)) : summaryFile
deriving DecidableEq

/-- Errors that abort the whole invocation. -/
inductive pipeErr where
  | cookedLoad : pipeErr
  | summarizeFail : pipeErr
deriving DecidableEq

/-- The (workload, date) pairs of every entry of a summary map: the `cooked`
set that `loadCooked` reconstructs. -/
def cookedSetOf (s : List (String × List writeRunSummary)) : List nameDay :=
  s.flatMap (fun ne => ne.2.map (fun e => (⟨ne.1, e.Date⟩ : nameDay)))

/-- `writeLoader.loadCooked`: an absent summary file is not an error (the
run starts afresh); a present but malformed one is fatal; a well-formed one
populates `cookedSummaries` and the `cooked` set. -/
def loadCooked : summaryFile → Except pipeErr (List nameDay × List (String × List writeRunSummary))
  | .absent => .ok ([], [])
  | .malformed => .error .cookedLoad
  | .wellformed m => .ok (cookedSetOf m, m)

/-- `cookWriteSummary`: the per-day summaries of one workload, in ascending
day order (`sort.Strings` on the day keys); `none` models the panics that
`summarize` can hit. -/
def cookWriteSummary (w : writeWorkload) : Option (List writeRunSummary) :=
  omapM (fun d => (alookup d w.days).bind writeRun.summarize)
    (List.insertionSort strRel (w.days.map Prod.fst))

/-- Date order on run summaries, the comparison of the `sort.Slice` call in
`cookSummary`. -/
def dateRel : writeRunSummary → writeRunSummary → Prop := fun a b => strRel a.Date b.Date

instance : DecidableRel dateRel := fun a b => inferInstanceAs (Decidable (strRel a.Date b.Date))

instance : IsTotal writeRunSummary dateRel := ⟨fun a b => strLeAux_total a.Date.data b.Date.data⟩

instance : IsTrans writeRunSummary dateRel :=
  ⟨fun a b c => strLeAux_trans a.Date.data b.Date.data c.Date.data⟩

/-- The merge of `cookSummary` for one workload present in both the new and
the cooked data: append the cooked entries to the new ones and re-sort by
date. -/
def mergeWorkloadSummary (existing cooked : List writeRunSummary) : List writeRunSummary :=
  List.insertionSort dateRel (existing ++ cooked)

/-- The mix-in loop of `cookSummary`: each previously cooked workload is
added wholesale when the new data has no entry for it, else merged with the
new entry. -/
def mixFold (cs : List (String × List writeRunSummary))
    (acc : List (String × List writeRunSummary)) : List (String × List writeRunSummary) :=
  cs.foldl
    (fun acc nc =>
      match alookup nc.1 acc with
      | none => aupsert nc.1 nc.2 acc
      | some ex => aupsert nc.1 (mergeWorkloadSummary ex nc.2) acc)
    acc

/-- The summary map that `cookSummary` serialises: the freshly computed
per-workload summaries with the previously cooked ones mixed in. -/
def cookSummaryMap (workloads : List (String × writeWorkload))
    (cs : List (String × List writeRunSummary)) :
    Option (List (String × List writeRunSummary)) :=
  match omapM (fun nw => (cookWriteSummary nw.2).map (fun v => (nw.1, v))) workloads with
  | none => none
  | some newPart => some (mixFold cs newPart)

/-- The per-run summary files that `cookWriteRunSummaries` writes: one file
per (workload, day), named by `summaryFilename`, holding the run's detail. -/
def perRunOutputs (workloads : List (String × writeWorkload)) :
    List (String × List (String × cookedWriteRun)) :=
  workloads.flatMap (fun nw => nw.2.days.map (fun dr => (dr.2.summaryFilename, dr.2.detail)))

/-- `parseWrite`, the whole pipeline: load the cooked summary, fold the raw
files into the aggregation tree, emit the merged top-level summary map and
the per-run detail files. -/
def runPipeline (sf : summaryFile) (files : List fileData) :
    Except pipeErr
      ((List (String × List writeRunSummary)) × List (String × List (String × cookedWriteRun))) :=
  match loadCooked sf with
  | .error e => .error e
  | .ok (cooked, cs) =>
    let st := files.foldl processFile
      { workloads := [], cooked := cooked, cookedSummaries := cs }
    match cookSummaryMap st.workloads st.cookedSummaries with
    | none => .error .summarizeFail
    | some s => .ok (s, perRunOutputs st.workloads)

/-! ## C7: load phase -/

/-- C7: `loadCooked` succeeds with empty cooked state when the top-level
summary file does not exist (a first run starts afresh), while a present but
malformed summary is a fatal error that aborts the whole invocation
(`runPipeline` propagates it). -/
theorem loadCooked_absent_ok_malformed_fatal :
    loadCooked .absent = .ok ([], []) ∧
    loadCooked .malformed = .error .cookedLoad ∧
    (∀ files : List fileData, runPipeline .malformed files = .error .cookedLoad) ∧
    (∀ m, loadCooked (.wellformed m) = .ok (cookedSetOf m, m)) :=
  ⟨rfl, rfl, fun _ => rfl, fun _ => rfl⟩

/-! ## C5: per-line error handling -/

/-- C5: a line without the record tag is silently ignored (the scanning state
is untouched); a tagged line that fails field scanning is reported and
skipped, and scanning continues with the next line; hence a file with one
well-formed record and one malformed record yields exactly one point and one
reported parse error. -/
theorem parse_error_nonfatal (cooked : List nameDay) (day n : String) (p : writePoint)
    (h : (⟨n, day⟩ : nameDay) ∉ cooked) :
    (∀ name pts ds rest, scanLoop cooked day name pts ds (.noTag :: rest) =
        scanLoop cooked day name pts ds rest) ∧
    (∀ name pts ds rest, scanLoop cooked day name pts ds (.malformed :: rest) =
        scanLoop cooked day name pts (ds ++ [.parseError]) rest) ∧
    scanLoop cooked day "" [] [] [.good n p, .malformed] = some (n, [p], [.parseError]) := by
  refine ⟨fun _ _ _ _ => rfl, fun _ _ _ _ => rfl, ?_⟩
  by_cases hn : n = ""
  · subst hn
    simp [scanLoop, h]
  · simp [scanLoop, h, hn]

/-- Point used to witness C5. -/
def pc5 : writePoint :=
  { elapsedSecs := 30, opsSec := 512, passed := true, size := 8, levels := 2, writeAmp := 1 }

theorem parse_error_nonfatal_witness :
    ((⟨"values=1024", "2023-01-01"⟩ : nameDay) ∉ ([] : List nameDay)) ∧
    scanLoop [] "2023-01-01" "" [] [] [.good "values=1024" pc5, .malformed] =
      some ("values=1024", [pc5], [.parseError]) :=
  ⟨by simp, (parse_error_nonfatal [] "2023-01-01" "values=1024" pc5 (by simp)).2.2⟩

/-! ## Scan-loop lemmas shared by several claims -/

theorem scanLoop_name_frozen (cooked : List nameDay) (day : String) :
    ∀ (lines : List fileLine) name pts ds res, name ≠ "" →
      scanLoop cooked day name pts ds lines = some res → res.1 = name := by
  intro lines
  induction lines with
  | nil =>
    intro name pts ds res hn h
    simp only [scanLoop, Option.some.injEq] at h
    rw [← h]
  | cons l rest ih =>
    intro name pts ds res hn h
    cases l with
    | noTag => exact ih _ _ _ _ hn h
    | malformed => exact ih _ _ _ _ hn h
    | badDur m =>
      simp only [scanLoop, if_neg hn] at h
      by_cases hm : name ≠ m
      · rw [if_pos hm] at h; exact ih _ _ _ _ hn h
      · rw [if_neg hm] at h; exact ih _ _ _ _ hn h
    | good m p =>
      simp only [scanLoop, if_neg hn] at h
      by_cases hm : name ≠ m
      · rw [if_pos hm] at h; exact ih _ _ _ _ hn h
      · rw [if_neg hm] at h; exact ih _ _ _ _ hn h

theorem scanLoop_final_name (cooked : List nameDay) (day : String) :
    ∀ (lines : List fileLine) name pts ds res,
      scanLoop cooked day name pts ds lines = some res →
        res.1 = name ∨ (⟨res.1, day⟩ : nameDay) ∉ cooked := by
  intro lines
  induction lines with
  | nil =>
    intro name pts ds res h
    simp only [scanLoop, Option.some.injEq] at h
    left; rw [← h]
  | cons l rest ih =>
    intro name pts ds res h
    cases l with
    | noTag => exact ih _ _ _ _ h
    | malformed => exact ih _ _ _ _ h
    | badDur m =>
      by_cases hn : name = ""
      · subst hn
        simp only [scanLoop, if_pos rfl] at h
        by_cases hmem : (⟨m, day⟩ : nameDay) ∈ cooked
        · rw [if_pos hmem] at h; cases h
        · rw [if_neg hmem] at h
          rcases ih _ _ _ _ h with h2 | h2
          · right; rw [h2]; exact hmem
          · right; exact h2
      · simp only [scanLoop, if_neg hn] at h
        by_cases hm : name ≠ m
        · rw [if_pos hm] at h; exact ih _ _ _ _ h
        · rw [if_neg hm] at h; exact ih _ _ _ _ h
    | good m p =>
      by_cases hn : name = ""
      · subst hn
        simp only [scanLoop, if_pos rfl] at h
        by_cases hmem : (⟨m, day⟩ : nameDay) ∈ cooked
        · rw [if_pos hmem] at h; cases h
        · rw [if_neg hmem] at h
          rcases ih _ _ _ _ h with h2 | h2
          · right; rw [h2]; exact hmem
          · right; exact h2
      · simp only [scanLoop, if_neg hn] at h
        by_cases hm : name ≠ m
        · rw [if_pos hm] at h; exact ih _ _ _ _ h
        · rw [if_neg hm] at h; exact ih _ _ _ _ h

theorem scanLoop_growth_not_cooked (cooked : List nameDay) (day : String) :
    ∀ (lines : List fileLine) pts ds res,
      scanLoop cooked day "" pts ds lines = some res → res.2.1 ≠ pts →
        (⟨res.1, day⟩ : nameDay) ∉ cooked := by
  intro lines
  induction lines with
  | nil =>
    intro pts ds res h hg
    simp only [scanLoop, Option.some.injEq] at h
    rw [← h] at hg
    exact absurd rfl hg
  | cons l rest ih =>
    intro pts ds res h hg
    cases l with
    | noTag => exact ih _ _ _ h hg
    | malformed => exact ih _ _ _ h hg
    | badDur m =>
      simp only [scanLoop, if_pos rfl] at h
      by_cases hmem : (⟨m, day⟩ : nameDay) ∈ cooked
      · rw [if_pos hmem] at h; cases h
      · rw [if_neg hmem] at h
        by_cases hm : m = ""
        · subst hm
          rcases scanLoop_final_name cooked day rest _ _ _ _ h with h2 | h2
          · rw [h2]; exact hmem
          · exact h2
        · rw [scanLoop_name_frozen cooked day rest _ _ _ _ hm h]
          exact hmem
    | good m p =>
      simp only [scanLoop, if_pos rfl] at h
      by_cases hmem : (⟨m, day⟩ : nameDay) ∈ cooked
      · rw [if_pos hmem] at h; cases h
      · rw [if_neg hmem] at h
        by_cases hm : m = ""
        · subst hm
          rcases scanLoop_final_name cooked day rest _ _ _ _ h with h2 | h2
          · rw [h2]; exact hmem
          · exact h2
        · rw [scanLoop_name_frozen cooked day rest _ _ _ _ hm h]
          exact hmem

theorem scanLoop_mono (c1 c2 : List nameDay) (hsub : ∀ x ∈ c1, x ∈ c2) (day : String) :
    ∀ (lines : List fileLine) name pts ds,
      scanLoop c2 day name pts ds lines = none ∨
        scanLoop c2 day name pts ds lines = scanLoop c1 day name pts ds lines := by
  intro lines
  induction lines with
  | nil => intro name pts ds; right; rfl
  | cons l rest ih =>
    intro name pts ds
    cases l with
    | noTag => exact ih _ _ _
    | malformed => exact ih _ _ _
    | badDur m =>
      by_cases hn : name = ""
      · subst hn
        by_cases hmem : (⟨m, day⟩ : nameDay) ∈ c2
        · left; simp [scanLoop, hmem]
        · have hm1 : (⟨m, day⟩ : nameDay) ∉ c1 := fun hx => hmem (hsub _ hx)
          simp only [scanLoop, if_pos rfl, if_neg hmem, if_neg hm1]
          exact ih _ _ _
      · simp only [scanLoop, if_neg hn]
        by_cases hm : name ≠ m
        · simp only [if_pos hm]; exact ih _ _ _
        · simp only [if_neg hm]; exact ih _ _ _
    | good m p =>
      by_cases hn : name = ""
      · subst hn
        by_cases hmem : (⟨m, day⟩ : nameDay) ∈ c2
        · left; simp [scanLoop, hmem]
        · have hm1 : (⟨m, day⟩ : nameDay) ∉ c1 := fun hx => hmem (hsub _ hx)
          simp only [scanLoop, if_pos rfl, if_neg hmem, if_neg hm1]
          exact ih _ _ _
      · simp only [scanLoop, if_neg hn]
        by_cases hm : name ≠ m
        · simp only [if_pos hm]; exact ih _ _ _
        · simp only [if_neg hm]; exact ih _ _ _

/-! ## C6: canonical benchmark name -/

/-- Point used for the C6 counterexample and witness. -/
def pc6 : writePoint :=
  { elapsedSecs := 60, opsSec := 256, passed := false, size := 4, levels := 5, writeAmp := 7 }

/-- C6 (counterexample): in a file whose first tagged line scans its fields
but fails duration parsing under name `A`, and whose second line parses fully
under name `B`, the canonical name is `A` — the name is established before
the duration is parsed — whereas the claim (first *fully* parsed line,
duration included) would make it `B`. The fully parsed `B` sample is still
processed, with a name-mismatch report against `A`. -/
theorem canonical_name_duration_counterexample :
    scanLoop [] "2023-01-01" "" [] [] [.badDur "A", .good "B" pc6] =
      some ("A", [pc6], [.badDuration, .nameMismatch "A" "B"]) ∧ "A" ≠ "B" := by
  constructor
  · simp [scanLoop]
  · decide

/-- C6 (amended): the first line that passes the record's field scan — even
when its duration field subsequently fails to parse — establishes the
canonical benchmark name of the file; once a (nonempty) name is established
it never changes, and a later fully parsed line with a different name is
reported as a non-fatal mismatch while its sample is still appended. -/
theorem canonical_name_amended (cooked : List nameDay) (day m m2 : String)
    (p p2 : writePoint) (hm : m ≠ "") (hc : (⟨m, day⟩ : nameDay) ∉ cooked) (hmm : m2 ≠ m) :
    (∀ pts ds rest, scanLoop cooked day "" pts ds (.good m p :: rest) =
        scanLoop cooked day m (pts ++ [p]) ds rest) ∧
    (∀ pts ds rest, scanLoop cooked day "" pts ds (.badDur m :: rest) =
        scanLoop cooked day m pts (ds ++ [.badDuration]) rest) ∧
    (∀ lines pts ds res, scanLoop cooked day m pts ds lines = some res → res.1 = m) ∧
    (∀ pts ds rest, scanLoop cooked day m pts ds (.good m2 p2 :: rest) =
        scanLoop cooked day m (pts ++ [p2]) (ds ++ [.nameMismatch m m2]) rest) := by
  have hm2 : m ≠ m2 := fun h => hmm h.symm
  refine ⟨?_, ?_, ?_, ?_⟩
  · intro pts ds rest
    simp [scanLoop, hc]
  · intro pts ds rest
    simp [scanLoop, hc]
  · intro lines pts ds res h
    exact scanLoop_name_frozen cooked day lines m pts ds res hm h
  · intro pts ds rest
    simp [scanLoop, hm, hm2]

theorem canonical_name_amended_witness :
    ("A" ≠ "") ∧ ((⟨"A", "2023-01-01"⟩ : nameDay) ∉ ([] : List nameDay)) ∧ ("B" ≠ "A") ∧
    scanLoop [] "2023-01-01" "" [] [] [.badDur "A"] =
      scanLoop [] "2023-01-01" "A" [] [.badDuration] [] :=
  ⟨by decide, by simp, by decide,
    (canonical_name_amended [] "2023-01-01" "A" "B" pc6 pc6 (by decide) (by simp)
      (by decide)).2.1 [] [] []⟩

/-! ## Association-list lemmas -/

theorem alookup_aupsert_self {α : Type} (k : String) (v : α) :
    ∀ l : List (String × α), alookup k (aupsert k v l) = some v := by
  intro l
  induction l with
  | nil => simp [alookup, aupsert]
  | cons hd tl ih =>
    obtain ⟨k', v'⟩ := hd
    by_cases h : k = k'
    · simp [alookup, aupsert, h]
    · simp [alookup, aupsert, h, ih]

theorem alookup_aupsert_other {α : Type} (k k2 : String) (v : α) (h : k2 ≠ k) :
    ∀ l : List (String × α), alookup k2 (aupsert k v l) = alookup k2 l := by
  intro l
  induction l with
  | nil => simp [alookup, aupsert, h]
  | cons hd tl ih =>
    obtain ⟨k', v'⟩ := hd
    by_cases h2 : k = k'
    · subst h2
      simp [alookup, aupsert, h]
    · by_cases h3 : k2 = k'
      · simp [alookup, aupsert, h2, h3]
      · simp [alookup, aupsert, h2, h3, ih]

theorem mem_aupsert {α : Type} (k : String) (v : α) :
    ∀ (l : List (String × α)) (x : String × α), x ∈ aupsert k v l → x = (k, v) ∨ x ∈ l := by
  intro l
  induction l with
  | nil => intro x hx; simp [aupsert] at hx; left; exact hx
  | cons hd tl ih =>
    intro x hx
    obtain ⟨k', v'⟩ := hd
    by_cases h : k = k'
    · simp only [aupsert, if_pos h] at hx
      rcases List.mem_cons.mp hx with rfl | hx
      · left; rfl
      · right; exact List.mem_cons_of_mem _ hx
    · simp only [aupsert, if_neg h] at hx
      rcases List.mem_cons.mp hx with rfl | hx
      · right; exact List.mem_cons_self _ _
      · rcases ih x hx with h2 | h2
        · left; exact h2
        · right; exact List.mem_cons_of_mem _ h2

theorem aupsert_ne_nil {α : Type} (k : String) (v : α) (l : List (String × α)) :
    aupsert k v l ≠ [] := by
  cases l with
  | nil => simp [aupsert]
  | cons hd tl =>
    obtain ⟨k', v'⟩ := hd
    by_cases h : k = k'
    · simp [aupsert, h]
    · simp [aupsert, h]

theorem alookup_none_iff {α : Type} (k : String) :
    ∀ l : List (String × α), alookup k l = none ↔ k ∉ l.map Prod.fst := by
  intro l
  induction l with
  | nil => simp [alookup]
  | cons hd tl ih =>
    obtain ⟨k', v'⟩ := hd
    by_cases h : k = k'
    · simp [alookup, h]
    · simp [alookup, h, ih]

theorem alookup_mem {α : Type} (k : String) (v : α) :
    ∀ l : List (String × α), alookup k l = some v → (k, v) ∈ l := by
  intro l
  induction l with
  | nil => intro h; cases h
  | cons hd tl ih =>
    intro h
    obtain ⟨k', v'⟩ := hd
    by_cases h2 : k = k'
    · simp only [alookup, if_pos h2] at h
      obtain ⟨⟩ := h
      rw [h2]
      exact List.mem_cons_self _ _
    · simp only [alookup, if_neg h2] at h
      exact List.mem_cons_of_mem _ (ih h)

theorem alookup_some_of_mem_keys {α : Type} (k : String) :
    ∀ l : List (String × α), k ∈ l.map Prod.fst → ∃ v, alookup k l = some v := by
  intro l hk
  rcases h : alookup k l with _ | v
  · exact absurd ((alookup_none_iff k l).mp h) (fun h2 => h2 hk)
  · exact ⟨v, rfl⟩

theorem keys_aupsert_some {α : Type} (k : String) (v w : α) :
    ∀ l : List (String × α), alookup k l = some w →
      (aupsert k v l).map Prod.fst = l.map Prod.fst := by
  intro l
  induction l with
  | nil => intro h; cases h
  | cons hd tl ih =>
    intro h
    obtain ⟨k', v'⟩ := hd
    by_cases h2 : k = k'
    · simp [aupsert, h2]
    · simp only [alookup, if_neg h2] at h
      simp [aupsert, h2, ih h]

theorem keys_aupsert_none {α : Type} (k : String) (v : α) :
    ∀ l : List (String × α), alookup k l = none →
      (aupsert k v l).map Prod.fst = l.map Prod.fst ++ [k] := by
  intro l
  induction l with
  | nil => intro _; simp [aupsert]
  | cons hd tl ih =>
    intro h
    obtain ⟨k', v'⟩ := hd
    by_cases h2 : k = k'
    · simp [alookup, if_pos h2] at h
    · simp only [alookup, if_neg h2] at h
      simp [aupsert, h2, ih h]

theorem nodup_keys_aupsert {α : Type} (k : String) (v : α) (l : List (String × α))
    (h : (l.map Prod.fst).Nodup) : ((aupsert k v l).map Prod.fst).Nodup := by
  rcases h2 : alookup k l with _ | w
  · rw [keys_aupsert_none k v l h2]
    rw [List.nodup_append]
    exact ⟨h, List.nodup_singleton k,
      by simpa using fun hk => (alookup_none_iff k l).mp h2 hk⟩
  · rw [keys_aupsert_some k v w l h2]
    exact h

/-! ## C8: the aggregation tree never holds an empty run -/

/-- Invariant of the aggregation tree: workload and day keys are unique,
every run carries the date and name it is keyed under, and the tree never
holds a run without raw runs nor a raw run without points. -/
def loaderInv (st : loaderState) : Prop :=
  (st.workloads.map Prod.fst).Nodup ∧
  ∀ nw ∈ st.workloads, (nw.2.days.map Prod.fst).Nodup ∧
    ∀ dr ∈ nw.2.days, dr.2.date = dr.1 ∧ dr.2.rawRuns ≠ [] ∧
      ∀ pr ∈ dr.2.rawRuns, pr.2.points ≠ []

theorem addRawRun_inv (st : loaderState) (name day path : String) (raw : rawWriteRun)
    (h : loaderInv st) : loaderInv (addRawRun st name day path raw) := by
  by_cases he : raw.points.isEmpty
  · simp only [addRawRun, if_pos he]
    exact h
  · have hpraw : raw.points ≠ [] := fun h2 => by simp [h2] at he
    obtain ⟨hkeys, hwl⟩ := h
    simp only [addRawRun, if_neg he]
    set w := (alookup name st.workloads).getD { days := [] } with hw
    set r := (alookup day w.days).getD
      { name := name, date := day, dir := dirOf path, rawRuns := [] } with hr
    have hwInv : (w.days.map Prod.fst).Nodup ∧
        ∀ dr ∈ w.days, dr.2.date = dr.1 ∧ dr.2.rawRuns ≠ [] ∧
          ∀ pr ∈ dr.2.rawRuns, pr.2.points ≠ [] := by
      rcases hlk : alookup name st.workloads with _ | w0
      · rw [hw, hlk]
        simp
      · have hmem := alookup_mem _ _ _ hlk
        have h3 := hwl (name, w0) hmem
        rw [hw, hlk]
        simpa using h3
    have hrInv : r.date = day ∧ ∀ pr ∈ r.rawRuns, pr.2.points ≠ [] := by
      rcases hlk : alookup day w.days with _ | r0
      · rw [hr, hlk]
        simp
      · have hmem := alookup_mem _ _ _ hlk
        have h3 := hwInv.2 (day, r0) hmem
        rw [hr, hlk]
        simp only [Option.getD_some]
        exact ⟨h3.1, h3.2.2⟩
    constructor
    · exact nodup_keys_aupsert _ _ _ hkeys
    · intro nw hnw
      rcases mem_aupsert _ _ _ _ hnw with heq | hnw2
      · subst heq
        simp only
        refine ⟨nodup_keys_aupsert _ _ _ hwInv.1, ?_⟩
        intro dr hdr
        rcases mem_aupsert _ _ _ _ hdr with heq2 | hdr2
        · subst heq2
          simp only
          refine ⟨hrInv.1, aupsert_ne_nil _ _ _, ?_⟩
          intro pr hpr
          rcases mem_aupsert _ _ _ _ hpr with heq3 | hpr2
          · subst heq3
            exact hpraw
          · exact hrInv.2 pr hpr2
        · exact hwInv.2 dr hdr2
      · exact hwl nw hnw2

theorem processFile_inv (st : loaderState) (f : fileData) (h : loaderInv st) :
    loaderInv (processFile st f) := by
  simp only [processFile]
  by_cases h1 : (splitSlash f.pathRel).length < 6
  · rw [if_pos h1]; exact h
  · rw [if_neg h1]
    by_cases h2 : (splitSlash f.pathRel).getD 2 "" ≠ "write"
    · rw [if_pos h2]; exact h
    · rw [if_neg h2]
      rcases hscan : scanLoop st.cooked ((splitSlash f.pathRel).getD 0 "") "" [] [] f.lines
        with _ | res
      · exact h
      · obtain ⟨n, pts, ds⟩ := res
        exact addRawRun_inv st n _ f.pathRel { points := pts, split := 0 } h

theorem foldl_processFile_inv (files : List fileData) :
    ∀ st, loaderInv st → loaderInv (files.foldl processFile st) := by
  induction files with
  | nil => intro st h; exact h
  | cons f rest ih => intro st h; exact ih _ (processFile_inv st f h)

theorem loaderInv_empty (cooked : List nameDay) (cs : List (String × List writeRunSummary)) :
    loaderInv { workloads := [], cooked := cooked, cookedSummaries := cs } := by
  constructor
  · simp
  · intro nw hnw; cases hnw

theorem summarize_isSome_aux (r : writeRun) (h1 : r.rawRuns ≠ [])
    (h2 : ∀ pr ∈ r.rawRuns, pr.2.points ≠ []) : (r.summarize).isSome := by
  have h3 := summarizeLoop_eq r.rawRuns 0 0 h2
  have hlen : ¬ r.rawRuns.length = 0 := fun h4 => h1 (List.length_eq_zero.mp h4)
  simp [writeRun.summarize, h3, hlen]

/-- Safety property of the aggregation tree: every run has a raw run, its
summary is defined (no division by zero), and every raw run has a point, so
its final write-amplification (last-point access) is defined. -/
def treeSafe (st : loaderState) : Prop :=
  ∀ nw ∈ st.workloads, ∀ dr ∈ nw.2.days,
    dr.2.rawRuns ≠ [] ∧ (dr.2.summarize).isSome ∧
      ∀ pr ∈ dr.2.rawRuns, pr.2.points ≠ [] ∧ (pr.2.writeAmp).isSome

theorem treeSafe_of_inv (st : loaderState) (h : loaderInv st) : treeSafe st := by
  intro nw hnw dr hdr
  obtain ⟨_, hwl⟩ := h
  obtain ⟨_, hdays⟩ := hwl nw hnw
  obtain ⟨hdate, hne, hpts⟩ := hdays dr hdr
  refine ⟨hne, summarize_isSome_aux _ hne hpts, ?_⟩
  intro pr hpr
  refine ⟨hpts pr hpr, ?_⟩
  obtain ⟨wa, hwa⟩ := writeAmp_of_points_ne_nil _ (hpts pr hpr)
  simp [hwa]

/-- A sequence of `addRawRun` insertions, the mutation interface of the
aggregation tree (each tuple is workload name, day, file path, raw run). -/
def applyRawOps (ops : List (String × String × String × rawWriteRun)) (st : loaderState) :
    loaderState :=
  ops.foldl (fun st o => addRawRun st o.1 o.2.1 o.2.2.1 o.2.2.2) st

/-- C8: after any sequence of `addRawRun` insertions into an empty tree,
every run holds at least one raw run and every raw run at least one point
(`addRawRun` silently drops empty ones), so the last-sample access behind
`rawWriteRun.writeAmp` and the division in `writeRun.summarize` are always
defined. -/
theorem tree_nonempty_safety (ops : List (String × String × String × rawWriteRun)) :
    treeSafe (applyRawOps ops { workloads := [], cooked := [], cookedSummaries := [] }) := by
  apply treeSafe_of_inv
  have hfold : ∀ st, loaderInv st → loaderInv (applyRawOps ops st) := by
    induction ops with
    | nil => intro st h; exact h
    | cons o rest ih =>
      intro st h
      exact ih _ (addRawRun_inv st o.1 o.2.1 o.2.2.1 o.2.2.2 h)
  exact hfold _ (loaderInv_empty [] [])

/-! ## C2: the merged summary sequence -/

theorem summarize_fields (r : writeRun) (s : writeRunSummary) (h : r.summarize = some s) :
    s.Date = r.date ∧ s.Name = r.name := by
  simp only [writeRun.summarize] at h
  rcases hloop : summarizeLoop r.rawRuns 0 0 with _ | out
  · rw [hloop] at h; cases h
  · rw [hloop] at h
    obtain ⟨so, sw⟩ := out
    simp only at h
    by_cases hz : r.rawRuns.length = 0
    · rw [if_pos hz] at h; cases h
    · rw [if_neg hz] at h
      obtain ⟨⟩ := h
      exact ⟨rfl, rfl⟩

theorem omapM_dates (w : writeWorkload)
    (hdate : ∀ dr ∈ w.days, dr.2.date = dr.1) :
    ∀ (ds : List String) (l : List writeRunSummary),
      omapM (fun d => (alookup d w.days).bind writeRun.summarize) ds = some l →
        l.map (fun e => e.Date) = ds := by
  intro ds
  induction ds with
  | nil =>
    intro l h
    simp only [omapM, Option.some.injEq] at h
    rw [← h]
    rfl
  | cons d rest ih =>
    intro l h
    simp only [omapM] at h
    rcases hg : (alookup d w.days).bind writeRun.summarize with _ | s
    · rw [hg] at h; cases h
    · rw [hg] at h
      rcases hrest : omapM (fun d => (alookup d w.days).bind writeRun.summarize) rest with _ | l2
      · rw [hrest] at h; cases h
      · rw [hrest] at h
        obtain ⟨⟩ := h
        rcases Option.bind_eq_some.mp hg with ⟨r, hr, hs⟩
        have hD := (summarize_fields r s hs).1
        have hd2 := hdate (d, r) (alookup_mem _ _ _ hr)
        simp only [List.map_cons, ih l2 hrest]
        rw [hD, hd2]

theorem cookWriteSummary_dates (w : writeWorkload)
    (hdate : ∀ dr ∈ w.days, dr.2.date = dr.1) (l : List writeRunSummary)
    (h : cookWriteSummary w = some l) :
    l.map (fun e => e.Date) = List.insertionSort strRel (w.days.map Prod.fst) :=
  omapM_dates w hdate _ l h

theorem sorted_of_dates_sorted (l : List writeRunSummary)
    (h : (l.map (fun e => e.Date)).Sorted strRel) : l.Sorted dateRel := by
  have h2 := List.pairwise_map.mp h
  exact h2

theorem cookWriteSummary_sorted_nodup (w : writeWorkload)
    (hkeys : (w.days.map Prod.fst).Nodup)
    (hdate : ∀ dr ∈ w.days, dr.2.date = dr.1) (l : List writeRunSummary)
    (h : cookWriteSummary w = some l) :
    l.Sorted dateRel ∧ (l.map (fun e => e.Date)).Nodup := by
  have hd := cookWriteSummary_dates w hdate l h
  constructor
  · apply sorted_of_dates_sorted
    rw [hd]
    exact List.sorted_insertionSort strRel _
  · rw [hd]
    exact ((List.perm_insertionSort strRel _).nodup_iff).mpr hkeys

theorem omapM_lookup (g : writeWorkload → Option (List writeRunSummary)) :
    ∀ (l : List (String × writeWorkload)) out,
      omapM (fun nw => (g nw.2).map (fun v => (nw.1, v))) l = some out →
        ∀ n, alookup n out = (alookup n l).bind (fun w => g w) := by
  intro l
  induction l with
  | nil =>
    intro out h n
    simp only [omapM, Option.some.injEq] at h
    rw [← h]
    rfl
  | cons hd tl ih =>
    intro out h n
    obtain ⟨k, w⟩ := hd
    simp only [omapM] at h
    rcases hg : g w with _ | v
    · rw [hg] at h; cases h
    · rw [hg] at h
      rcases hrest : omapM (fun nw => (g nw.2).map (fun v => (nw.1, v))) tl with _ | out2
      · rw [hrest] at h; cases h
      · rw [hrest] at h
        simp only [Option.map_some', Option.some.injEq] at h
        rw [← h]
        by_cases hn : n = k
        · subst hn
          simp [alookup, hg]
        · simp only [alookup, if_neg hn]
          exact ih out2 hrest n

theorem omapM_keys (g : writeWorkload → Option (List writeRunSummary)) :
    ∀ (l : List (String × writeWorkload)) out,
      omapM (fun nw => (g nw.2).map (fun v => (nw.1, v))) l = some out →
        out.map Prod.fst = l.map Prod.fst := by
  intro l
  induction l with
  | nil =>
    intro out h
    simp only [omapM, Option.some.injEq] at h
    rw [← h]
    rfl
  | cons hd tl ih =>
    intro out h
    obtain ⟨k, w⟩ := hd
    simp only [omapM] at h
    rcases hg : g w with _ | v
    · rw [hg] at h; cases h
    · rw [hg] at h
      rcases hrest : omapM (fun nw => (g nw.2).map (fun v => (nw.1, v))) tl with _ | out2
      · rw [hrest] at h; cases h
      · rw [hrest] at h
        simp only [Option.map_some', Option.some.injEq] at h
        rw [← h]
        simp [ih out2 hrest]

theorem mixFold_lookup (cs : List (String × List writeRunSummary)) :
    (cs.map Prod.fst).Nodup →
      ∀ acc n,
        (alookup n cs = none → alookup n (mixFold cs acc) = alookup n acc) ∧
        (∀ c, alookup n cs = some c →
          (alookup n acc = none → alookup n (mixFold cs acc) = some c) ∧
          (∀ a, alookup n acc = some a →
            alookup n (mixFold cs acc) = some (mergeWorkloadSummary a c))) := by
  induction cs with
  | nil =>
    intro _ acc n
    exact ⟨fun _ => rfl, fun c hc => by cases hc⟩
  | cons hd tl ih =>
    intro hnd acc n
    obtain ⟨k, c0⟩ := hd
    simp only [List.map_cons, List.nodup_cons] at hnd
    obtain ⟨hk, hnd2⟩ := hnd
    have hktl : alookup k tl = none := (alookup_none_iff k tl).mpr hk
    have hstep_none : alookup k acc = none →
        mixFold ((k, c0) :: tl) acc = mixFold tl (aupsert k c0 acc) := by
      intro hka
      simp [mixFold, hka]
    have hstep_some : ∀ ex, alookup k acc = some ex →
        mixFold ((k, c0) :: tl) acc =
          mixFold tl (aupsert k (mergeWorkloadSummary ex c0) acc) := by
      intro ex hka
      simp [mixFold, hka]
    by_cases hn : n = k
    · subst hn
      constructor
      · intro hcs
        simp [alookup] at hcs
      · intro c hc
        simp [alookup] at hc
        subst hc
        constructor
        · intro hacc
          rw [hstep_none hacc, (ih hnd2 _ n).1 hktl]
          exact alookup_aupsert_self n c0 acc
        · intro a hacc
          rw [hstep_some a hacc, (ih hnd2 _ n).1 hktl]
          exact alookup_aupsert_self n _ acc
    · have hcs_tail : alookup n ((k, c0) :: tl) = alookup n tl := by
        simp [alookup, hn]
      constructor
      · intro hcs
        rw [hcs_tail] at hcs
        rcases hka : alookup k acc with _ | ex
        · rw [hstep_none hka, (ih hnd2 _ n).1 hcs]
          exact alookup_aupsert_other k n c0 hn acc
        · rw [hstep_some ex hka, (ih hnd2 _ n).1 hcs]
          exact alookup_aupsert_other k n _ hn acc
      · intro c hc
        rw [hcs_tail] at hc
        constructor
        · intro hacc
          rcases hka : alookup k acc with _ | ex
          · rw [hstep_none hka]
            exact ((ih hnd2 _ n).2 c hc).1
              (by rw [alookup_aupsert_other k n c0 hn acc]; exact hacc)
          · rw [hstep_some ex hka]
            exact ((ih hnd2 _ n).2 c hc).1
              (by rw [alookup_aupsert_other k n _ hn acc]; exact hacc)
        · intro a hacc
          rcases hka : alookup k acc with _ | ex
          · rw [hstep_none hka]
            exact ((ih hnd2 _ n).2 c hc).2 a
              (by rw [alookup_aupsert_other k n c0 hn acc]; exact hacc)
          · rw [hstep_some ex hka]
            exact ((ih hnd2 _ n).2 c hc).2 a
              (by rw [alookup_aupsert_other k n _ hn acc]; exact hacc)

/-- C2 (amended): every workload sequence in the merged summary that
`cookSummary` emits is sorted ascending by date; and it has at most one
entry per date provided the dates of the newly computed data and of the
previously cooked data are disjoint for that workload (which the filter
phase guarantees absent concurrent runs). When the same date occurs on both
sides, both entries are kept — concatenated and re-sorted, not eliminated
(see the counterexample). -/
theorem cookSummary_sorted_amended
    (workloads : List (String × writeWorkload)) (cs S : List (String × List writeRunSummary))
    (hS : cookSummaryMap workloads cs = some S)
    (hdays : ∀ nw ∈ workloads, (nw.2.days.map Prod.fst).Nodup ∧
        ∀ dr ∈ nw.2.days, dr.2.date = dr.1)
    (hcs : ∀ ne ∈ cs, ne.2.Sorted dateRel ∧ (ne.2.map (fun e => e.Date)).Nodup)
    (hckeys : (cs.map Prod.fst).Nodup)
    (hdisj : ∀ n w es, alookup n workloads = some w → alookup n cs = some es →
        ∀ e ∈ es, e.Date ∉ w.days.map Prod.fst) :
    ∀ n es, alookup n S = some es → es.Sorted dateRel ∧ (es.map (fun e => e.Date)).Nodup := by
  intro n es hes
  simp only [cookSummaryMap] at hS
  rcases homap : omapM (fun nw => (cookWriteSummary nw.2).map (fun v => (nw.1, v))) workloads
    with _ | newPart
  · rw [homap] at hS; cases hS
  · rw [homap] at hS
    obtain ⟨⟩ := hS
    have hml := mixFold_lookup cs hckeys newPart n
    have hnew := omapM_lookup cookWriteSummary workloads newPart homap n
    cases hcsl : alookup n cs with
    | none =>
      rw [hml.1 hcsl, hnew] at hes
      rcases Option.bind_eq_some.mp hes with ⟨w, hw, hcw⟩
      have hd := hdays (n, w) (alookup_mem _ _ _ hw)
      exact cookWriteSummary_sorted_nodup w hd.1 hd.2 es hcw
    | some c =>
      cases hnpl : alookup n newPart with
      | none =>
        rw [(hml.2 c hcsl).1 hnpl] at hes
        obtain ⟨⟩ := hes
        exact hcs (n, es) (alookup_mem _ _ _ hcsl)
      | some a =>
        rw [(hml.2 c hcsl).2 a hnpl] at hes
        obtain ⟨⟩ := hes
        constructor
        · exact List.sorted_insertionSort dateRel (a ++ c)
        · rw [hnew] at hnpl
          rcases Option.bind_eq_some.mp hnpl with ⟨w, hw, hcw⟩
          have hd := hdays (n, w) (alookup_mem _ _ _ hw)
          have hda := cookWriteSummary_dates w hd.2 a hcw
          have hnda : (a.map (fun e => e.Date)).Nodup := by
            rw [hda]
            exact ((List.perm_insertionSort strRel _).nodup_iff).mpr hd.1
          have hndc := (hcs (n, c) (alookup_mem _ _ _ hcsl)).2
          have hdisj2 : ∀ z, z ∈ a.map (fun e => e.Date) → z ∈ c.map (fun e => e.Date) → False := by
            intro z hz1 hz2
            rcases List.mem_map.mp hz2 with ⟨e, he, hze⟩
            have hz3 : e.Date ∈ w.days.map Prod.fst := by
              rw [hda] at hz1
              rw [hze]
              exact ((List.perm_insertionSort strRel _).mem_iff).mp hz1
            exact hdisj n w c hw hcsl e he hz3
          have hperm : ((mergeWorkloadSummary a c).map (fun e => e.Date)).Perm
              ((a ++ c).map (fun e => e.Date)) :=
            (List.perm_insertionSort dateRel (a ++ c)).map _
          apply hperm.nodup_iff.mpr
          rw [List.map_append, List.nodup_append]
          exact ⟨hnda, hndc, hdisj2⟩

/-- Point used in the C2 inputs. -/
def pc2 : writePoint :=
  { elapsedSecs := 1, opsSec := 100, passed := true, size := 0, levels := 0, writeAmp := 1 }

/-- Freshly parsed run for the C2 counterexample, dated 2023-01-01. -/
def wrunC2 : writeRun :=
  { name := "values=1024", date := "2023-01-01", dir := "2023-01-01/pebble/write/values=1024/1",
    rawRuns := [("f", { points := [pc2], split := 0 })] }

/-- New data of the C2 counterexample. -/
def wl0 : List (String × writeWorkload) :=
  [("values=1024", { days := [("2023-01-01", wrunC2)] })]

/-- Cooked entry of the C2 counterexample, for the same workload and date. -/
def e0 : writeRunSummary :=
  { Name := "values=1024", Date := "2023-01-01", OpsSec := 99, WriteAmp := 0, SummaryPath := "p" }

/-- Cooked summaries of the C2 counterexample. -/
def cs0 : List (String × List writeRunSummary) := [("values=1024", [e0])]

/-- Merged summary map of the C2 counterexample. -/
def outC2 : List (String × List writeRunSummary) := (cookSummaryMap wl0 cs0).getD []

/-- The merged sequence of the C2 counterexample's workload. -/
def esC2 : List writeRunSummary := (alookup "values=1024" outC2).getD []

/-- C2 (counterexample): when the same date appears in both the new and the
previously cooked data for a workload, `cookSummary` keeps both entries —
the merged sequence holds the date twice, so duplicates are concatenated and
re-sorted, not eliminated. -/
theorem cookSummary_duplicate_dates_counterexample :
    cookSummaryMap wl0 cs0 = some outC2 ∧
    alookup "values=1024" outC2 = some esC2 ∧
    esC2.map (fun e => e.Date) = ["2023-01-01", "2023-01-01"] ∧
    ¬ (esC2.map (fun e => e.Date)).Nodup :=
  ⟨rfl, rfl, rfl, by decide⟩

/-- Freshly parsed run for the C2 witness, dated 2023-01-02. -/
def wrun2 : writeRun :=
  { name := "values=1024", date := "2023-01-02", dir := "2023-01-02/pebble/write/values=1024/1",
    rawRuns := [("f", { points := [pc2], split := 0 })] }

/-- New data of the C2 witness. -/
def wl1 : List (String × writeWorkload) :=
  [("values=1024", { days := [("2023-01-02", wrun2)] })]

/-- Cooked entries of the C2 witness, dated 2023-01-01 and 2023-01-03. -/
def cs1 : List (String × List writeRunSummary) :=
  [("values=1024",
    [ { Name := "values=1024", Date := "2023-01-01", OpsSec := 90, WriteAmp := 0,
        SummaryPath := "p1" }
    , { Name := "values=1024", Date := "2023-01-03", OpsSec := 110, WriteAmp := 0,
        SummaryPath := "p3" } ])]

/-- Merged summary map of the C2 witness. -/
def s1 : List (String × List writeRunSummary) := (cookSummaryMap wl1 cs1).getD []

theorem cookSummary_sorted_amended_witness :
    cookSummaryMap wl1 cs1 = some s1 ∧
    (∀ n es, alookup n s1 = some es → es.Sorted dateRel ∧ (es.map (fun e => e.Date)).Nodup) ∧
    ((alookup "values=1024" s1).getD []).map (fun e => e.Date) =
      ["2023-01-01", "2023-01-02", "2023-01-03"] := by
  have h1 : ∀ nw ∈ wl1, (nw.2.days.map Prod.fst).Nodup ∧
      ∀ dr ∈ nw.2.days, dr.2.date = dr.1 := by decide
  have h2 : ∀ ne ∈ cs1, ne.2.Sorted dateRel ∧ (ne.2.map (fun e => e.Date)).Nodup := by decide
  have h3 : (cs1.map Prod.fst).Nodup := by decide
  have h4 : ∀ n w es, alookup n wl1 = some w → alookup n cs1 = some es →
      ∀ e ∈ es, e.Date ∉ w.days.map Prod.fst := by
    intro n w es hw hes e he
    by_cases hn : n = "values=1024"
    · subst hn
      have hw2 := Option.some.inj hw
      have hes2 := Option.some.inj hes
      rw [← hw2]
      rw [← hes2] at he
      rcases List.mem_cons.mp he with h5 | h5
      · rw [h5]; decide
      · rcases List.mem_cons.mp h5 with h6 | h6
        · rw [h6]; decide
        · cases h6
    · simp [alookup, wl1, hn] at hw
  exact ⟨rfl, cookSummary_sorted_amended wl1 cs1 s1 rfl h1 h2 h3 h4, rfl⟩

/-! ## C3: idempotent re-run -/

theorem aupsert_append_of_none {α : Type} (k : String) (v : α) :
    ∀ l : List (String × α), alookup k l = none → aupsert k v l = l ++ [(k, v)] := by
  intro l
  induction l with
  | nil => intro _; rfl
  | cons hd tl ih =>
    intro h
    obtain ⟨k', v'⟩ := hd
    by_cases h2 : k = k'
    · simp [alookup, if_pos h2] at h
    · simp only [alookup, if_neg h2] at h
      simp [aupsert, h2, ih h]

theorem alookup_append {α : Type} (k : String) :
    ∀ l1 l2 : List (String × α),
      alookup k (l1 ++ l2) = match alookup k l1 with
        | some v => some v
        | none => alookup k l2 := by
  intro l1 l2
  induction l1 with
  | nil => rfl
  | cons hd tl ih =>
    obtain ⟨k', v'⟩ := hd
    by_cases h : k = k'
    · simp [alookup, if_pos h]
    · simp only [List.cons_append, alookup, if_neg h]
      exact ih

theorem mixFold_fresh (cs : List (String × List writeRunSummary)) :
    (cs.map Prod.fst).Nodup →
      ∀ acc, (∀ k ∈ cs.map Prod.fst, alookup k acc = none) → mixFold cs acc = acc ++ cs := by
  induction cs with
  | nil => intro _ acc _; simp [mixFold]
  | cons hd tl ih =>
    intro hnd acc hfresh
    obtain ⟨k, c⟩ := hd
    simp only [List.map_cons, List.nodup_cons] at hnd
    obtain ⟨hk, hnd2⟩ := hnd
    have hka : alookup k acc = none := hfresh k (List.mem_cons_self _ _)
    have hstep : mixFold ((k, c) :: tl) acc = mixFold tl (aupsert k c acc) := by
      simp [mixFold, hka]
    rw [hstep, aupsert_append_of_none k c acc hka, ih hnd2]
    · simp
    · intro k2 hk2
      rw [alookup_append]
      rw [hfresh k2 (List.mem_cons_of_mem _ hk2)]
      have hne : k2 ≠ k := fun h => hk (h ▸ hk2)
      simp [alookup, hne]

theorem mixFold_keys_nodup (cs : List (String × List writeRunSummary)) :
    ∀ acc, (acc.map Prod.fst).Nodup → ((mixFold cs acc).map Prod.fst).Nodup := by
  induction cs with
  | nil => intro acc h; exact h
  | cons hd tl ih =>
    intro acc h
    obtain ⟨k, c⟩ := hd
    rcases hka : alookup k acc with _ | ex
    · have hstep : mixFold ((k, c) :: tl) acc = mixFold tl (aupsert k c acc) := by
        simp [mixFold, hka]
      rw [hstep]
      exact ih _ (nodup_keys_aupsert k c acc h)
    · have hstep : mixFold ((k, c) :: tl) acc =
          mixFold tl (aupsert k (mergeWorkloadSummary ex c) acc) := by
        simp [mixFold, hka]
      rw [hstep]
      exact ih _ (nodup_keys_aupsert k _ acc h)

theorem mem_merge_left (e : writeRunSummary) (a c : List writeRunSummary) (h : e ∈ a) :
    e ∈ mergeWorkloadSummary a c :=
  ((List.perm_insertionSort dateRel (a ++ c)).mem_iff).mpr (List.mem_append_left c h)

theorem mem_merge_right (e : writeRunSummary) (a c : List writeRunSummary) (h : e ∈ c) :
    e ∈ mergeWorkloadSummary a c :=
  ((List.perm_insertionSort dateRel (a ++ c)).mem_iff).mpr (List.mem_append_right a h)

theorem mixFold_grow (cs : List (String × List writeRunSummary)) :
    ∀ acc n es0, alookup n acc = some es0 →
      ∃ es1, alookup n (mixFold cs acc) = some es1 ∧ ∀ e ∈ es0, e ∈ es1 := by
  induction cs with
  | nil => intro acc n es0 h; exact ⟨es0, h, fun e he => he⟩
  | cons hd tl ih =>
    intro acc n es0 h
    obtain ⟨k, c⟩ := hd
    by_cases hn : n = k
    · subst hn
      have hstep : mixFold ((n, c) :: tl) acc =
          mixFold tl (aupsert n (mergeWorkloadSummary es0 c) acc) := by
        simp [mixFold, h]
      rw [hstep]
      obtain ⟨es1, h1, h2⟩ := ih (aupsert n (mergeWorkloadSummary es0 c) acc) n
        (mergeWorkloadSummary es0 c) (alookup_aupsert_self _ _ _)
      exact ⟨es1, h1, fun e he => h2 e (mem_merge_left e es0 c he)⟩
    · rcases hka : alookup k acc with _ | ex
      · have hstep : mixFold ((k, c) :: tl) acc = mixFold tl (aupsert k c acc) := by
          simp [mixFold, hka]
        rw [hstep]
        exact ih _ n es0 (by rw [alookup_aupsert_other k n c hn acc]; exact h)
      · have hstep : mixFold ((k, c) :: tl) acc =
            mixFold tl (aupsert k (mergeWorkloadSummary ex c) acc) := by
          simp [mixFold, hka]
        rw [hstep]
        exact ih _ n es0 (by rw [alookup_aupsert_other k n _ hn acc]; exact h)

theorem mixFold_cs_grow (cs : List (String × List writeRunSummary)) :
    ∀ acc k es, (k, es) ∈ cs →
      ∃ es1, alookup k (mixFold cs acc) = some es1 ∧ ∀ e ∈ es, e ∈ es1 := by
  induction cs with
  | nil => intro acc k es h; cases h
  | cons hd tl ih =>
    intro acc k es hmem
    obtain ⟨k0, c0⟩ := hd
    rcases List.mem_cons.mp hmem with heq | htl
    · obtain ⟨⟩ := heq
      rcases hka : alookup k acc with _ | ex
      · have hstep : mixFold ((k, es) :: tl) acc = mixFold tl (aupsert k es acc) := by
          simp [mixFold, hka]
        rw [hstep]
        obtain ⟨es1, h1, h2⟩ := mixFold_grow tl (aupsert k es acc) k es
          (alookup_aupsert_self _ _ _)
        exact ⟨es1, h1, h2⟩
      · have hstep : mixFold ((k, es) :: tl) acc =
            mixFold tl (aupsert k (mergeWorkloadSummary ex es) acc) := by
          simp [mixFold, hka]
        rw [hstep]
        obtain ⟨es1, h1, h2⟩ := mixFold_grow tl (aupsert k (mergeWorkloadSummary ex es) acc) k
          (mergeWorkloadSummary ex es) (alookup_aupsert_self _ _ _)
        exact ⟨es1, h1, fun e he => h2 e (mem_merge_right e ex es he)⟩
    · rcases hka : alookup k0 acc with _ | ex
      · have hstep : mixFold ((k0, c0) :: tl) acc = mixFold tl (aupsert k0 c0 acc) := by
          simp [mixFold, hka]
        rw [hstep]
        exact ih _ k es htl
      · have hstep : mixFold ((k0, c0) :: tl) acc =
            mixFold tl (aupsert k0 (mergeWorkloadSummary ex c0) acc) := by
          simp [mixFold, hka]
        rw [hstep]
        exact ih _ k es htl

theorem omapM_entry_some {α β : Type} (F : α → Option β) :
    ∀ (l : List α) out, omapM F l = some out → ∀ x ∈ l, ∃ y, F x = some y := by
  intro l
  induction l with
  | nil => intro out _ x hx; cases hx
  | cons hd tl ih =>
    intro out h x hx
    simp only [omapM] at h
    rcases hg : F hd with _ | y
    · rw [hg] at h; cases h
    · rcases hrest : omapM F tl with _ | out2
      · rw [hg, hrest] at h; cases h
      · rcases List.mem_cons.mp hx with rfl | hx2
        · exact ⟨y, hg⟩
        · exact ih out2 hrest x hx2

/-- The effective contribution of one file under a given cooked set: `none`
when the path guards reject it, when its scan is skipped as previously
cooked, or when it yields no points; otherwise the (name, day, points) that
`processFile` hands to `addRawRun`. -/
def fileAdds (cooked : List nameDay) (f : fileData) : Option (String × String × List writePoint) :=
  let parts := splitSlash f.pathRel
  if parts.length < 6 then none
  else if parts.getD 2 "" ≠ "write" then none
  else
    match scanLoop cooked (parts.getD 0 "") "" [] [] f.lines with
    | none => none
    | some (name, pts, _) =>
      if pts.isEmpty then none else some (name, parts.getD 0 "", pts)

theorem processFile_id (st : loaderState) (f : fileData)
    (h : fileAdds st.cooked f = none) : processFile st f = st := by
  simp only [processFile, fileAdds] at h ⊢
  by_cases h1 : (splitSlash f.pathRel).length < 6
  · rw [if_pos h1]
  · rw [if_neg h1] at h ⊢
    by_cases h2 : (splitSlash f.pathRel).getD 2 "" ≠ "write"
    · rw [if_pos h2]
    · rw [if_neg h2] at h ⊢
      rcases hscan : scanLoop st.cooked ((splitSlash f.pathRel).getD 0 "") "" [] [] f.lines
        with _ | res
      · rfl
      · obtain ⟨n, pts, ds⟩ := res
        rw [hscan] at h
        simp only at h ⊢
        by_cases hp : pts.isEmpty
        · simp [addRawRun, hp]
        · rw [if_neg hp] at h
          cases h

theorem processFile_adds (st : loaderState) (f : fileData) (n d : String)
    (pts : List writePoint) (h : fileAdds st.cooked f = some (n, d, pts)) :
    processFile st f = addRawRun st n d f.pathRel { points := pts, split := 0 } ∧
      pts ≠ [] := by
  simp only [processFile, fileAdds] at h ⊢
  by_cases h1 : (splitSlash f.pathRel).length < 6
  · rw [if_pos h1] at h; cases h
  · rw [if_neg h1] at h ⊢
    by_cases h2 : (splitSlash f.pathRel).getD 2 "" ≠ "write"
    · rw [if_pos h2] at h; cases h
    · rw [if_neg h2] at h ⊢
      rcases hscan : scanLoop st.cooked ((splitSlash f.pathRel).getD 0 "") "" [] [] f.lines
        with _ | res
      · rw [hscan] at h; cases h
      · obtain ⟨n2, pts2, ds⟩ := res
        rw [hscan] at h
        simp only at h ⊢
        by_cases hp : pts2.isEmpty
        · rw [if_pos hp] at h; cases h
        · rw [if_neg hp] at h
          obtain ⟨⟩ := h
          refine ⟨rfl, ?_⟩
          intro hnil
          rw [hnil] at hp
          exact hp rfl

theorem addRawRun_state (st : loaderState) (n d p : String) (raw : rawWriteRun) :
    (addRawRun st n d p raw).cooked = st.cooked ∧
      (addRawRun st n d p raw).cookedSummaries = st.cookedSummaries := by
  by_cases he : raw.points.isEmpty
  · simp [addRawRun, he]
  · simp [addRawRun, he]

theorem processFile_state (st : loaderState) (f : fileData) :
    (processFile st f).cooked = st.cooked ∧
      (processFile st f).cookedSummaries = st.cookedSummaries := by
  rcases hadd : fileAdds st.cooked f with _ | res
  · rw [processFile_id st f hadd]
    exact ⟨rfl, rfl⟩
  · obtain ⟨n, d, pts⟩ := res
    rw [(processFile_adds st f n d pts hadd).1]
    exact addRawRun_state st n d f.pathRel { points := pts, split := 0 }

theorem foldl_processFile_state (files : List fileData) :
    ∀ st, (files.foldl processFile st).cooked = st.cooked ∧
      (files.foldl processFile st).cookedSummaries = st.cookedSummaries := by
  induction files with
  | nil => intro st; exact ⟨rfl, rfl⟩
  | cons f rest ih =>
    intro st
    obtain ⟨h1, h2⟩ := ih (processFile st f)
    obtain ⟨h3, h4⟩ := processFile_state st f
    exact ⟨by rw [List.foldl_cons, h1, h3], by rw [List.foldl_cons, h2, h4]⟩

/-- A (workload, day) pair is present in the aggregation tree. -/
def hasRun (st : loaderState) (n d : String) : Prop :=
  ∃ w, alookup n st.workloads = some w ∧ ∃ r, alookup d w.days = some r

theorem addRawRun_hasRun_self (st : loaderState) (n d p : String) (raw : rawWriteRun)
    (h : raw.points ≠ []) : hasRun (addRawRun st n d p raw) n d := by
  have he : ¬ raw.points.isEmpty := fun h2 => h (by simpa using h2)
  simp only [addRawRun, if_neg he]
  exact ⟨_, alookup_aupsert_self _ _ _, _, alookup_aupsert_self _ _ _⟩

theorem addRawRun_hasRun_mono (st : loaderState) (n d p : String) (raw : rawWriteRun)
    (n0 d0 : String) (h : hasRun st n0 d0) : hasRun (addRawRun st n d p raw) n0 d0 := by
  obtain ⟨w0, hw0, r0, hr0⟩ := h
  by_cases he : raw.points.isEmpty
  · simp only [addRawRun, if_pos he]
    exact ⟨w0, hw0, r0, hr0⟩
  · simp only [addRawRun, if_neg he]
    by_cases hn : n0 = n
    · subst hn
      refine ⟨_, alookup_aupsert_self _ _ _, ?_⟩
      rw [hw0]
      simp only [Option.getD_some]
      by_cases hd : d0 = d
      · subst hd
        exact ⟨_, alookup_aupsert_self _ _ _⟩
      · refine ⟨r0, ?_⟩
        rw [alookup_aupsert_other d d0 _ hd w0.days]
        exact hr0
    · refine ⟨w0, ?_, r0, hr0⟩
      rw [alookup_aupsert_other n n0 _ hn st.workloads]
      exact hw0

theorem processFile_hasRun_mono (st : loaderState) (f : fileData) (n0 d0 : String)
    (h : hasRun st n0 d0) : hasRun (processFile st f) n0 d0 := by
  rcases hadd : fileAdds st.cooked f with _ | res
  · rw [processFile_id st f hadd]; exact h
  · obtain ⟨n, d, pts⟩ := res
    rw [(processFile_adds st f n d pts hadd).1]
    exact addRawRun_hasRun_mono st n d f.pathRel _ n0 d0 h

theorem foldl_processFile_hasRun_mono (files : List fileData) :
    ∀ st n0 d0, hasRun st n0 d0 → hasRun (files.foldl processFile st) n0 d0 := by
  induction files with
  | nil => intro st n0 d0 h; exact h
  | cons f rest ih =>
    intro st n0 d0 h
    exact ih _ n0 d0 (processFile_hasRun_mono st f n0 d0 h)

theorem foldl_processFile_reach (files : List fileData) :
    ∀ (st : loaderState) (f : fileData) (n d : String) (pts : List writePoint), f ∈ files →
      fileAdds st.cooked f = some (n, d, pts) →
        hasRun (files.foldl processFile st) n d := by
  induction files with
  | nil => intro st f n d pts hf _; cases hf
  | cons g rest ih =>
    intro st f n d pts hf hadd
    rcases List.mem_cons.mp hf with rfl | hf2
    · rw [List.foldl_cons]
      obtain ⟨hpf, hne⟩ := processFile_adds st f n d pts hadd
      rw [hpf]
      exact foldl_processFile_hasRun_mono rest _ n d
        (addRawRun_hasRun_self st n d f.pathRel _ hne)
    · rw [List.foldl_cons]
      apply ih (processFile st g) f n d pts hf2
      rw [(processFile_state st g).1]
      exact hadd

theorem fileAdds_none_of_covered (c1 c2 : List nameDay) (f : fileData)
    (hsub : ∀ x ∈ c1, x ∈ c2)
    (hcov : ∀ n d pts, fileAdds c1 f = some (n, d, pts) → (⟨n, d⟩ : nameDay) ∈ c2) :
    fileAdds c2 f = none := by
  simp only [fileAdds] at hcov ⊢
  by_cases h1 : (splitSlash f.pathRel).length < 6
  · rw [if_pos h1]
  · rw [if_neg h1] at hcov ⊢
    by_cases h2 : (splitSlash f.pathRel).getD 2 "" ≠ "write"
    · rw [if_pos h2]
    · rw [if_neg h2] at hcov ⊢
      rcases scanLoop_mono c1 c2 hsub ((splitSlash f.pathRel).getD 0 "") f.lines "" [] []
        with hm | hm
      · rw [hm]
      · rw [hm]
        rcases hscan1 : scanLoop c1 ((splitSlash f.pathRel).getD 0 "") "" [] [] f.lines
          with _ | res
        · rfl
        · obtain ⟨n, pts, ds⟩ := res
          simp only
          by_cases hp : pts.isEmpty
          · rw [if_pos hp]
          · exfalso
            have hadd : (if pts.isEmpty then none
                else some (n, (splitSlash f.pathRel).getD 0 "", pts)) =
                  some (n, (splitSlash f.pathRel).getD 0 "", pts) := by rw [if_neg hp]
            have hmem := hcov n ((splitSlash f.pathRel).getD 0 "") pts (by rw [hscan1]; exact hadd)
            have hscan2 : scanLoop c2 ((splitSlash f.pathRel).getD 0 "") "" [] [] f.lines =
                some (n, pts, ds) := by rw [hm, hscan1]
            have hne : pts ≠ [] := fun h3 => by rw [h3] at hp; exact hp rfl
            exact scanLoop_growth_not_cooked c2 _ f.lines [] [] (n, pts, ds) hscan2 hne hmem

theorem foldl_processFile_covered (files : List fileData) (c1 : List nameDay) :
    ∀ st : loaderState, (∀ x ∈ c1, x ∈ st.cooked) →
      (∀ f ∈ files, ∀ n d pts, fileAdds c1 f = some (n, d, pts) →
        (⟨n, d⟩ : nameDay) ∈ st.cooked) →
      files.foldl processFile st = st := by
  induction files with
  | nil => intro st _ _; rfl
  | cons f rest ih =>
    intro st hsub hcov
    have hid : processFile st f = st :=
      processFile_id st f (fileAdds_none_of_covered c1 st.cooked f hsub
        (hcov f (List.mem_cons_self _ _)))
    rw [List.foldl_cons, hid]
    exact ih st hsub (fun g hg => hcov g (List.mem_cons_of_mem _ hg))

theorem cookedSetOf_mem (S : List (String × List writeRunSummary)) (k : String)
    (es : List writeRunSummary) (e : writeRunSummary)
    (h1 : alookup k S = some es) (h2 : e ∈ es) :
    (⟨k, e.Date⟩ : nameDay) ∈ cookedSetOf S :=
  List.mem_flatMap.mpr ⟨(k, es), alookup_mem _ _ _ h1, List.mem_map.mpr ⟨e, h2, rfl⟩⟩

theorem hasRun_in_summary (st : loaderState) (S : List (String × List writeRunSummary))
    (n d : String) (hinv : loaderInv st) (hrun : hasRun st n d)
    (hcsm : cookSummaryMap st.workloads st.cookedSummaries = some S) :
    (⟨n, d⟩ : nameDay) ∈ cookedSetOf S := by
  obtain ⟨w, hw, r, hr⟩ := hrun
  simp only [cookSummaryMap] at hcsm
  rcases homap : omapM (fun nw => (cookWriteSummary nw.2).map (fun v => (nw.1, v)))
      st.workloads with _ | newPart
  · rw [homap] at hcsm; cases hcsm
  · rw [homap] at hcsm
    obtain ⟨⟩ := hcsm
    have hlook := omapM_lookup cookWriteSummary st.workloads newPart homap n
    have hlook2 : alookup n newPart = cookWriteSummary w := by rw [hlook, hw]; rfl
    rcases hcw : cookWriteSummary w with _ | a
    · obtain ⟨y, hy⟩ := omapM_entry_some _ st.workloads newPart homap (n, w)
        (alookup_mem _ _ _ hw)
      rw [hcw] at hy
      cases hy
    · have hdate : ∀ dr ∈ w.days, dr.2.date = dr.1 :=
        fun dr hdr => ((hinv.2 (n, w) (alookup_mem _ _ _ hw)).2 dr hdr).1
      have hdates := cookWriteSummary_dates w hdate a hcw
      have hdkeys : d ∈ w.days.map Prod.fst :=
        List.mem_map.mpr ⟨(d, r), alookup_mem _ _ _ hr, rfl⟩
      have hdmem : d ∈ a.map (fun e => e.Date) := by
        rw [hdates]
        exact ((List.perm_insertionSort strRel _).mem_iff).mpr hdkeys
      rcases List.mem_map.mp hdmem with ⟨e, he, hde⟩
      have hnp : alookup n newPart = some a := by rw [hlook2, hcw]
      obtain ⟨es1, h1, h2⟩ := mixFold_grow st.cookedSummaries newPart n a hnp
      have h3 := cookedSetOf_mem _ n es1 e h1 (h2 e he)
      rw [hde] at h3
      exact h3

/-- C3: running the pipeline a second time over the same input files with the
first run's top-level summary loaded produces the same summary structure and
writes no per-run files — every file contributing to the first run hits the
cooked-set skip, files contributing nothing are dropped again, and every
workload passes through the merge unchanged. The emitted artifacts are
deterministic functions of these structures, so the on-disk artifacts are
byte-identical. -/
theorem rerun_idempotent (sf : summaryFile) (files : List fileData)
    (S : List (String × List writeRunSummary))
    (P : List (String × List (String × cookedWriteRun)))
    (h : runPipeline sf files = .ok (S, P)) :
    runPipeline (.wellformed S) files = .ok (S, []) := by
  rcases hsf : loadCooked sf with e | pair
  · rw [runPipeline, hsf] at h
    cases h
  · obtain ⟨cooked1, cs1⟩ := pair
    rw [runPipeline, hsf] at h
    simp only at h
    rcases hcsm : cookSummaryMap
        (files.foldl processFile
          { workloads := [], cooked := cooked1, cookedSummaries := cs1 }).workloads
        (files.foldl processFile
          { workloads := [], cooked := cooked1, cookedSummaries := cs1 }).cookedSummaries
      with _ | S0
    · rw [hcsm] at h; cases h
    · rw [hcsm] at h
      simp only [Except.ok.injEq, Prod.mk.injEq] at h
      obtain ⟨hS0, hP0⟩ := h
      subst hS0
      have hstate := foldl_processFile_state files
        { workloads := [], cooked := cooked1, cookedSummaries := cs1 }
      have hinv : loaderInv (files.foldl processFile
          { workloads := [], cooked := cooked1, cookedSummaries := cs1 }) :=
        foldl_processFile_inv files _ (loaderInv_empty _ _)
      obtain ⟨newPart, homap, hS0eq⟩ : ∃ np,
          omapM (fun nw => (cookWriteSummary nw.2).map (fun v => (nw.1, v)))
            (files.foldl processFile
              { workloads := [], cooked := cooked1, cookedSummaries := cs1 }).workloads =
              some np ∧
          S0 = mixFold (files.foldl processFile
            { workloads := [], cooked := cooked1, cookedSummaries := cs1 }).cookedSummaries np := by
        have hcsm2 := hcsm
        simp only [cookSummaryMap] at hcsm2
        rcases homap : omapM (fun nw => (cookWriteSummary nw.2).map (fun v => (nw.1, v)))
            (files.foldl processFile
              { workloads := [], cooked := cooked1, cookedSummaries := cs1 }).workloads
          with _ | np
        · rw [homap] at hcsm2; cases hcsm2
        · rw [homap] at hcsm2
          simp only [Option.some.injEq] at hcsm2
          exact ⟨np, homap, hcsm2.symm⟩
      have hcov : ∀ f ∈ files, ∀ n d pts, fileAdds cooked1 f = some (n, d, pts) →
          (⟨n, d⟩ : nameDay) ∈ cookedSetOf S0 := by
        intro f hf n d pts hadd
        have hrun : hasRun (files.foldl processFile
            { workloads := [], cooked := cooked1, cookedSummaries := cs1 }) n d :=
          foldl_processFile_reach files _ f n d pts hf hadd
        exact hasRun_in_summary _ S0 n d hinv hrun hcsm
      have hsub : ∀ x ∈ cooked1, x ∈ cookedSetOf S0 := by
        cases sf with
        | absent =>
          simp only [loadCooked, Except.ok.injEq, Prod.mk.injEq] at hsf
          intro x hx
          rw [← hsf.1] at hx
          cases hx
        | malformed => cases hsf
        | wellformed C0 =>
          simp only [loadCooked, Except.ok.injEq, Prod.mk.injEq] at hsf
          intro x hx
          rw [← hsf.1] at hx
          rcases List.mem_flatMap.mp hx with ⟨ne, hne, hx2⟩
          rcases List.mem_map.mp hx2 with ⟨e, he, hxe⟩
          have hne2 : (ne.1, ne.2) ∈ (files.foldl processFile
              { workloads := [], cooked := cooked1, cookedSummaries := cs1 }).cookedSummaries := by
            rw [hstate.2, ← hsf.2]
            exact hne
          obtain ⟨es1, h1, h2⟩ := mixFold_cs_grow _ newPart ne.1 ne.2 hne2
          rw [← hS0eq] at h1
          rw [← hxe]
          exact cookedSetOf_mem S0 ne.1 es1 e h1 (h2 e he)
      have hfold2 : files.foldl processFile
          { workloads := [], cooked := cookedSetOf S0, cookedSummaries := S0 } =
          { workloads := [], cooked := cookedSetOf S0, cookedSummaries := S0 } :=
        foldl_processFile_covered files cooked1 _ hsub hcov
      have hnodup : (S0.map Prod.fst).Nodup := by
        rw [hS0eq]
        apply mixFold_keys_nodup
        rw [omapM_keys _ _ newPart homap]
        exact hinv.1
      have hfresh : mixFold S0 [] = S0 := by
        have h4 := mixFold_fresh S0 hnodup [] (fun k _ => rfl)
        simpa using h4
      rw [runPipeline]
      simp only [loadCooked]
      rw [hfold2]
      have hcs2 : cookSummaryMap
          ({ workloads := [], cooked := cookedSetOf S0,
             cookedSummaries := S0 } : loaderState).workloads
          ({ workloads := [], cooked := cookedSetOf S0,
             cookedSummaries := S0 } : loaderState).cookedSummaries = some S0 := by
        rw [show cookSummaryMap
            ({ workloads := [], cooked := cookedSetOf S0,
               cookedSummaries := S0 } : loaderState).workloads
            ({ workloads := [], cooked := cookedSetOf S0,
               cookedSummaries := S0 } : loaderState).cookedSummaries =
            some (mixFold S0 []) from rfl, hfresh]
      rw [hcs2]
      rfl

/-- Input file used to witness C3. -/
def fc3 : fileData :=
  { pathRel := "2023-01-01/pebble/write/values=1024/1/log.gz"
    lines := [.good "values=1024" pc2] }

/-- Top-level summary produced by the first run of the C3 witness. -/
def sc3 : List (String × List writeRunSummary) :=
  match runPipeline summaryFile.absent [fc3] with
  | .ok pr => pr.1
  | .error _ => []

/-- Per-run outputs produced by the first run of the C3 witness. -/
def pc3out : List (String × List (String × cookedWriteRun)) :=
  match runPipeline summaryFile.absent [fc3] with
  | .ok pr => pr.2
  | .error _ => []

theorem rerun_idempotent_witness :
    runPipeline summaryFile.absent [fc3] = .ok (sc3, pc3out) ∧
    runPipeline (.wellformed sc3) [fc3] = .ok (sc3, []) :=
  ⟨rfl, rerun_idempotent .absent [fc3] sc3 pc3out rfl⟩
